import Mathlib

/-!
# Verification of the rdst radix-sort core

A shallow embedding of the rdst sorting core (the `src/` tree of the crate:
`lib.rs`, `tuner.rs`, `utils/sort_utils.rs`, `sorts/out_of_place_sort.rs`,
`radix_key_impl.rs`) together with proofs about the embedded definitions.

Conventions used throughout:
* machine integers (`usize`, `u8`) are modelled as `Nat`; `isize` as `Int`;
  overflow/underflow-checked subtraction and fallible indexing are modelled
  with `Option` where the Rust operation can panic;
* a `[usize; 256]` count array is modelled as a `List Nat` of length 256;
* a `RadixKey` implementation is modelled by its `get_level` function
  `f : α → Nat → Nat` (element → level → byte), returning values `< 256`
  (the Rust return type is `u8`);
* buckets (`&[T]` / `&mut [T]`) are modelled as `List α`, and in-place
  mutation as returning the new list.
-/

namespace Rdst

/-! ## Count arrays and prefix sums (utils/sort_utils.rs) -/

/-- `counts[b] += 1`: the histogram-increment idiom used by every counting
loop in the crate.  Rust's `counts[b]` panics when `b` is out of bounds; in
the crate `b` is always a `u8` cast to `usize`, hence `< 256 = counts.len()`,
so the total `List.set` (a no-op out of bounds) agrees with the source on
every reachable input. -/
def bump (counts : List Nat) (b : Nat) : List Nat :=
  counts.set b (counts.getD b 0 + 1)

/-- The all-zero 256-entry count array `[0usize; 256]`. -/
def zeros256 : List Nat := List.replicate 256 0

/-- Running-total scan used by `get_prefix_sums`. -/
def prefixScan (running_total : Nat) : List Nat → List Nat
  | [] => []
  | c :: rest => running_total :: prefixScan (running_total + c) rest

/-- `get_prefix_sums` (utils/sort_utils.rs lines 8-18; the `Vec` variant in
lib.rs lines 142-152 computes the same scan): entry `i` is the sum of
`counts[0..i)`. -/
def getPrefixSums (counts : List Nat) : List Nat :=
  prefixScan 0 counts

/-- Pointwise sum of two count arrays (the `out[i] += tile[i]` loops).  Both
operands always have length 256 in the crate. -/
def addCounts (a b : List Nat) : List Nat :=
  List.zipWith (· + ·) a b

/-! ## Chunk iterators

`slice::chunks_exact(n)` and `slice::chunks(n)` from the Rust standard
library, modelled with an explicit structural-recursion counter (`fuel`)
so that the definitions reduce inside the kernel; `fuel = l.length` always
suffices because each step consumes at least one element. -/

def chunksExactGo (fuel : Nat) (n : Nat) (l : List α) : List (List α) × List α :=
  match fuel with
  | 0 => ([], l)
  | fuel + 1 =>
    if 0 < n ∧ n ≤ l.length then
      let rest := chunksExactGo fuel n (l.drop n)
      (l.take n :: rest.1, rest.2)
    else ([], l)

/-- `l.chunks_exact(n)`: the list of full `n`-chunks, plus the remainder. -/
def chunksExact (n : Nat) (l : List α) : List (List α) × List α :=
  chunksExactGo l.length n l

def chunksOfGo (fuel : Nat) (n : Nat) (l : List α) : List (List α) :=
  match fuel with
  | 0 => []
  | fuel + 1 =>
    if 0 < n ∧ 0 < l.length then
      l.take n :: chunksOfGo fuel n (l.drop n)
    else []

/-- `l.chunks(n)` / `l.par_chunks(n)`: `⌈len/n⌉` contiguous chunks, the last
possibly short.  Requires `n ≥ 1` (Rust panics on `n = 0`). -/
def chunksOf (n : Nat) (l : List α) : List (List α) :=
  chunksOfGo l.length n l

/-! ## Counting (utils/sort_utils.rs `get_counts`, `par_get_counts`,
`get_tile_counts`, `aggregate_tile_counts`, `is_homogenous_bucket`) -/

/-- The body of the `chunks_exact(4)` loop of `get_counts`: bump each of
the four accumulators with the byte of its element of the chunk. -/
def getCountsChunkStep (f : α → Nat → Nat) (level : Nat)
    (s : List Nat × List Nat × List Nat × List Nat) (chunk : List α) :
    List Nat × List Nat × List Nat × List Nat :=
  match chunk with
  | [a, b, c, d] =>
    (bump s.1 (f a level), bump s.2.1 (f b level),
     bump s.2.2.1 (f c level), bump s.2.2.2 (f d level))
  | _ => s  -- unreachable: `chunks_exact(4)` only yields 4-element chunks

/-- `get_counts` (utils/sort_utils.rs lines 68-106): histogram of the
level-th byte, computed with four independent accumulators over
`chunks_exact(4)` plus a remainder loop, merged at the end. -/
def getCounts (f : α → Nat → Nat) (bucket : List α) (level : Nat) : List Nat :=
  let p := chunksExact 4 bucket
  let s := p.1.foldl (getCountsChunkStep f level) (zeros256, zeros256, zeros256, zeros256)
  let c1 := p.2.foldl (fun c v => bump c (f v level)) s.1
  addCounts (addCounts (addCounts c1 s.2.1) s.2.2.1) s.2.2.2

/-- `par_get_counts` (utils/sort_utils.rs lines 32-65): below 400 000
elements fall back to the serial count; otherwise count
`threads × 8` tiles and sum the per-tile histograms.  The mpsc channel
delivers the per-chunk histograms in a nondeterministic order; the
columnwise sum is order-independent, so the in-order fold is faithful. -/
def parGetCounts (threads : Nat) (f : α → Nat → Nat) (bucket : List α)
    (level : Nat) : List Nat :=
  if bucket.length < 400000 then getCounts f bucket level
  else
    let chunk_size := bucket.length / threads / 8 + 1
    ((chunksOf chunk_size bucket).map (fun chunk => getCounts f chunk level)).foldl
      addCounts zeros256

/-- `get_tile_counts` (utils/sort_utils.rs lines 319-337): one histogram per
`tile_size`-chunk (each computed by `par_get_counts` under the
`multi-threaded` feature). -/
def getTileCounts (threads : Nat) (f : α → Nat → Nat) (bucket : List α)
    (tile_size level : Nat) : List (List Nat) :=
  (chunksOf tile_size bucket).map (fun chunk => parGetCounts threads f chunk level)

/-- `aggregate_tile_counts` (utils/sort_utils.rs lines 340-349): starts from
`tile_counts[0]`, which panics (`none`) when the tile list is empty, then
adds the remaining tiles pointwise. -/
def aggregateTileCounts (tile_counts : List (List Nat)) : Option (List Nat) :=
  match tile_counts with
  | [] => none  -- `tile_counts[0]` panics: index out of bounds
  | t :: rest => some (rest.foldl addCounts t)

/-- The per-index ("columnar") sum of a sequence of 256-entry histograms,
as the spec's tiled-counting invariant phrases it. -/
def columnSum (tiles : List (List Nat)) : List Nat :=
  tiles.foldl addCounts zeros256

def isHomogenousGo (seen : Bool) : List Nat → Bool
  | [] => true
  | c :: rest =>
    if 0 < c then
      if seen then false else isHomogenousGo true rest
    else isHomogenousGo seen rest

/-- `is_homogenous_bucket` (utils/sort_utils.rs lines 352-365): true iff at
most one of the counts is nonzero. -/
def isHomogenousBucket (counts : List Nat) : Bool :=
  isHomogenousGo false counts

/-- `cdiv` (utils/sort_utils.rs lines 314-316). -/
def cdiv (a b : Nat) : Nat := (a + b - 1) / b

/-! ## RadixKey implementations (radix_key_impl.rs)

`u16`, `u32`, `u64`, `u128` and `usize` all share the body
`(self >> ((Self::LEVELS - 1 - level) * 8)) as u8`, differing only in
`LEVELS` (2, 4, 8, 16, and 8 on 64-bit targets). -/

/-- The integer `get_level` body, for a key of `w` levels. -/
def getLevelUint (w v level : Nat) : Nat :=
  (v >>> ((w - 1 - level) * 8)) % 256

/-- `impl RadixKey for u8` (radix_key_impl.rs lines 3-10): `LEVELS = 1` and
`get_level` ignores the level and returns the value itself (a `u8`,
hence `< 256`). -/
def getLevelU8 (v : Nat) (_level : Nat) : Nat := v

/-- The big-endian byte string of a `w`-byte value, most significant byte
first (the spec's "big-endian representation"; written from the spec's
words, to be compared with `getLevelUint`). -/
def beBytes : Nat → Nat → List Nat
  | 0, _ => []
  | w + 1, v => beBytes w (v / 256) ++ [v % 256]

/-- The tuple `(byte_at(x,0), …, byte_at(x,LEVELS-1))` from the spec's
order property, for the integer keys. -/
def levelTuple (w v : Nat) : List Nat :=
  (List.range w).map (fun l => getLevelUint w v l)

/-- Lexicographic `≤` on equal-length byte tuples (the spec's
`concat_levels` comparison; written from the spec's words). -/
def lexLe : List Nat → List Nat → Bool
  | [], [] => true
  | [], _ :: _ => true
  | _ :: _, [] => false
  | x :: xs, y :: ys => x < y || (x = y && lexLe xs ys)

/-! ## The tuner (tuner.rs) -/

/-- `TuningParams` (tuner.rs lines 3-11). -/
structure TuningParams where
  threads : Nat
  level : Nat
  total_levels : Nat
  input_len : Nat
  parent_len : Nat
  in_place : Bool

/-- `Algorithm` (tuner.rs lines 13-24). -/
inductive Algorithm where
  | MtOopSort
  | MtLsbSort
  | ScanningSort
  | RecombinatingSort
  | ComparativeSort
  | LrLsbSort
  | LsbSort
  | RegionsSort
  | SkaSort
  deriving DecidableEq, Repr

/-- `pick_algorithm_standard` (tuner.rs lines 26-78).  The Rust range
matches `0..=a => X, a+1..=b => Y, …` are translated to ordered `≤`
tests; the trailing `_ => …` arms are unreachable and therefore dropped.
The `for c in counts` loop returns the same algorithm whichever count
triggers it, so it is modelled by `List.any`. -/
def pickAlgorithmStandard (p : TuningParams) (counts : List Nat) : Algorithm :=
  if p.input_len ≤ 128 then Algorithm.ComparativeSort
  else
    let depth := p.total_levels - p.level - 1
    let distribution_threshold := p.input_len / 256 * 2
    if 5000 ≤ p.input_len ∧ counts.any (fun c => distribution_threshold ≤ c) then
      if depth = 0 then
        if p.input_len ≤ 200000 then Algorithm.LrLsbSort
        else if p.input_len ≤ 350000 then Algorithm.SkaSort
        else if p.input_len ≤ 4000000 then Algorithm.MtLsbSort
        else Algorithm.RegionsSort
      else
        if p.input_len ≤ 200000 then Algorithm.LrLsbSort
        else if p.input_len ≤ 800000 then Algorithm.SkaSort
        else if p.input_len ≤ 5000000 then Algorithm.RecombinatingSort
        else Algorithm.RegionsSort
    else if 0 < depth then
      if p.input_len ≤ 200000 then Algorithm.LsbSort
      else if p.input_len ≤ 800000 then Algorithm.SkaSort
      else if p.input_len ≤ 50000000 then Algorithm.RecombinatingSort
      else Algorithm.ScanningSort
    else
      if p.input_len ≤ 150000 then Algorithm.LsbSort
      else if p.input_len ≤ 260000 then Algorithm.SkaSort
      else if p.input_len ≤ 50000000 then Algorithm.RecombinatingSort
      else Algorithm.ScanningSort

/-- `pick_algorithm_in_place` (tuner.rs lines 80-128).  Both the `depth = 0`
and `depth > 0` arms of both the distributed and the default branch use the
same 50 000 / 1 000 000 boundaries. -/
def pickAlgorithmInPlace (p : TuningParams) (counts : List Nat) : Algorithm :=
  if p.input_len ≤ 128 then Algorithm.ComparativeSort
  else
    let depth := p.total_levels - p.level - 1
    let distribution_threshold := p.input_len / 256 * 2
    if 5000 ≤ p.input_len ∧ counts.any (fun c => distribution_threshold ≤ c) then
      if depth = 0 then
        if p.input_len ≤ 50000 then Algorithm.LrLsbSort
        else if p.input_len ≤ 1000000 then Algorithm.SkaSort
        else Algorithm.RegionsSort
      else
        if p.input_len ≤ 50000 then Algorithm.LrLsbSort
        else if p.input_len ≤ 1000000 then Algorithm.SkaSort
        else Algorithm.RegionsSort
    else if depth = 0 then
      if p.input_len ≤ 50000 then Algorithm.LsbSort
      else if p.input_len ≤ 1000000 then Algorithm.SkaSort
      else Algorithm.RegionsSort
    else
      if p.input_len ≤ 50000 then Algorithm.LsbSort
      else if p.input_len ≤ 1000000 then Algorithm.SkaSort
      else Algorithm.RegionsSort

/-- `Tuner::pick_algorithm` (tuner.rs lines 130-139). -/
def pickAlgorithm (p : TuningParams) (counts : List Nat) : Algorithm :=
  if p.in_place then pickAlgorithmInPlace p counts
  else pickAlgorithmStandard p counts

/-- The decision table exactly as the spec states it (§4.10): written from
the spec's words, to be compared with `pickAlgorithm`.  `depth =
total_levels − level − 1`; "distributed" = some count `≥ (len / 256) * 2`
(checked only from 5 000 elements up); in-place mode collapses the two
large regimes to Regions above 1 000 000 and retains Ska for lengths
50 001 through 1 000 000. -/
def specPickAlgorithm (p : TuningParams) (counts : List Nat) : Algorithm :=
  let depth := p.total_levels - p.level - 1
  let distributed :=
    5000 ≤ p.input_len ∧ counts.any (fun c => p.input_len / 256 * 2 ≤ c)
  if p.in_place then
    if p.input_len ≤ 128 then Algorithm.ComparativeSort
    else if 1000000 < p.input_len then Algorithm.RegionsSort
    else if 50001 ≤ p.input_len then Algorithm.SkaSort
    else if distributed then Algorithm.LrLsbSort
    else Algorithm.LsbSort
  else
    if p.input_len ≤ 128 then Algorithm.ComparativeSort
    else if distributed then
      if depth = 0 then
        if p.input_len ≤ 200000 then Algorithm.LrLsbSort
        else if p.input_len ≤ 350000 then Algorithm.SkaSort
        else if p.input_len ≤ 4000000 then Algorithm.MtLsbSort
        else Algorithm.RegionsSort
      else
        if p.input_len ≤ 200000 then Algorithm.LrLsbSort
        else if p.input_len ≤ 800000 then Algorithm.SkaSort
        else if p.input_len ≤ 5000000 then Algorithm.RecombinatingSort
        else Algorithm.RegionsSort
    else if 0 < depth then
      if p.input_len ≤ 200000 then Algorithm.LsbSort
      else if p.input_len ≤ 800000 then Algorithm.SkaSort
      else if p.input_len ≤ 50000000 then Algorithm.RecombinatingSort
      else Algorithm.ScanningSort
    else
      if p.input_len ≤ 150000 then Algorithm.LsbSort
      else if p.input_len ≤ 260000 then Algorithm.SkaSort
      else if p.input_len ≤ 50000000 then Algorithm.RecombinatingSort
      else Algorithm.ScanningSort

/-! ## Scanner buckets (lib.rs lines 126-131 and 364-451)

`ScannerBucket` holds the head state of one of the 256 per-output-bucket
records of the scanning radix sort; the slab (`chunk: &mut [T]`) is
carved out of the input and only its length enters the head arithmetic,
recorded here as `len : Int` (an `isize` in the source). -/

structure ScannerBucket where
  write_head : Nat
  read_head : Nat
  len : Int

/-- `let scanner_read_size = 16384` (lib.rs line 349). -/
def scannerReadSize : Int := 16384

/-- One full visit of a worker to a scanner bucket under its lock
(lib.rs lines 375-449), parametrised by the current length of the
worker's thread-local stash for this bucket: skip when finished
(`write_head ≥ len`), else read up to `min(len − read_head, 16384)`
elements (advancing `read_head`) and then write back up to
`min(stash_len, read_head − write_head)` stashed elements (advancing
`write_head`).  All comparisons and `min`s are `isize` arithmetic as in
the source; the element moves touch only the slab, not the heads. -/
def scanStep (stash_len : Nat) (g : ScannerBucket) : ScannerBucket :=
  if g.len.toNat ≤ g.write_head then g
  else
    let read_start : Int := g.read_head
    let to_read : Int := min (g.len - read_start) scannerReadSize
    let g1 :=
      if 0 < to_read then { g with read_head := g.read_head + to_read.toNat }
      else g
    let to_write : Int :=
      min (stash_len : Int) ((g1.read_head : Int) - (g1.write_head : Int))
    if to_write < 1 then g1
    else { g1 with write_head := g1.write_head + to_write.toNat }

/-! ## Plateau detection (utils/sort_utils.rs lines 123-255) -/

/-- The explore-left loop of `detect_plateaus` (steps 2.1 and 2.4): walk
`i` down from `start`; stop (returning the original `start`) upon reaching
`stop`, or return `i + 1` at the first index `i` whose byte differs from
`radix`.  Step 2.1 uses `stop = 0`, step 2.4 `stop = *sr`; the source
loop can only decrement `i` while `i > stop`, so the `i = 0` case below is
reached exactly when `stop = 0`. -/
def exploreLeftGo [Inhabited α] (f : α → Nat → Nat) (bucket : List α)
    (level radix stop orig : Nat) : Nat → Nat
  | 0 => orig
  | i + 1 =>
    if i + 1 = stop then orig
    else if f (bucket.getD i default) level ≠ radix then i + 1
    else exploreLeftGo f bucket level radix stop orig i

/-- The explore-right loop of `detect_plateaus` (steps 2.2 and 2.5): walk
`i` up from `start`; stop (returning the original `start`) upon reaching
`len − 1`, or return `i` at the first index `i` whose byte differs from
`radix`.  Structured on the distance `gas = (len − 1) − i`, which the
source loop decreases by one per iteration. -/
def exploreRightGo [Inhabited α] (f : α → Nat → Nat) (bucket : List α)
    (level radix orig : Nat) : Nat → Nat → Nat
  | _, 0 => orig
  | i, gas + 1 =>
    if f (bucket.getD (i + 1) default) level ≠ radix then i + 1
    else exploreRightGo f bucket level radix orig (i + 1) gas

/-- Step 1 of `detect_plateaus`: the sampled sweep at stride
`plateau_min_size` over indices `0, s, 2s, …`, carrying
`(current, start, end, candidates)` exactly as the source's mutable
state, flushing a candidate `(current, s, s, e, e)` at each byte change
when `start ≠ end`. -/
def plateauCandidates (f : α → Nat → Nat) (level : Nat)
    (samples : List (Nat × α)) : List (Nat × Nat × Nat × Nat × Nat) :=
  let fin := samples.foldl
    (fun (st : Nat × Option Nat × Option Nat × List (Nat × Nat × Nat × Nat × Nat)) iv =>
      let b := f iv.2 level
      if b = st.1 then (st.1, st.2.1, some iv.1, st.2.2.2)
      else
        let cands :=
          match st.2.1, st.2.2.1 with
          | some s, some e => if s ≠ e then st.2.2.2 ++ [(st.1, s, s, e, e)] else st.2.2.2
          | _, _ => st.2.2.2
        (b, some iv.1, some iv.1, cands))
    (0, none, none, [])
  fin.2.2.2

/-- Step 2 of `detect_plateaus` for one candidate `(radix, sl, sr, el, er)`:
explore around the start and end points and emit the plateaus found. -/
def plateauExplore [Inhabited α] (f : α → Nat → Nat) (bucket : List α)
    (level plateau_min_size : Nat) (cand : Nat × Nat × Nat × Nat × Nat) :
    List (Nat × Nat × Nat) :=
  let radix := cand.1
  let sl := cand.2.1
  let sr := cand.2.2.1
  let el := cand.2.2.2.1
  let er := cand.2.2.2.2
  -- 2.1 / 2.2: explore left and right of the start point
  let sl := exploreLeftGo f bucket level radix 0 sl sl
  let sr := exploreRightGo f bucket level radix sr sr (bucket.length - 1 - sr)
  -- 2.3: one big plateau across both points?
  if er < sr then [(radix, sl, sr)]
  else
    let around_start := if plateau_min_size ≤ sr - sl then [(radix, sl, sr)] else []
    if el - sr < plateau_min_size then around_start
    else
      -- 2.4 / 2.5: explore left and right of the end point
      let el := exploreLeftGo f bucket level radix sr el el
      let er := exploreRightGo f bucket level radix er er (bucket.length - 1 - er)
      -- 2.6: separate plateau at the end point?
      if plateau_min_size ≤ er - el then around_start ++ [(radix, el, er)]
      else around_start

/-- `detect_plateaus` (utils/sort_utils.rs lines 123-255): find maximal
runs of equal level-bytes of length at least `len >> 4`, returning
`(radix, start, end)` triples; disabled (empty result) when
`len >> 4 < 128`. -/
def detectPlateaus [Inhabited α] (f : α → Nat → Nat) (bucket : List α)
    (level : Nat) : List (Nat × Nat × Nat) :=
  let plateau_min_size := bucket.length >>> 4
  if plateau_min_size < 128 then []
  else
    let samples :=
      (List.range (cdiv bucket.length plateau_min_size)).map
        (fun k => (k * plateau_min_size, bucket.getD (k * plateau_min_size) default))
    (plateauCandidates f level samples).foldl
      (fun acc cand => acc ++ plateauExplore f bucket level plateau_min_size cand) []

/-! ## Out-of-place scatter (sorts/out_of_place_sort.rs lines 5-51)

The source reads eight elements per iteration (`chunks_exact(8)` plus a
remainder loop); the eight byte extractions are independent of the write
state, and the eight write/increment pairs happen in source order, so the
pass is elementwise-in-order and is embedded as a single structural
recursion over the source bucket.  `dst_bucket[prefix_sums[b]]` uses
panicking indexing, modelled by `setOpt`. -/

/-- Fallible store `l[i] = v` (Rust's panicking index assignment). -/
def setOpt (l : List α) (i : Nat) (v : α) : Option (List α) :=
  if i < l.length then some (l.set i v) else none

def scatterGo (f : α → Nat → Nat) (level : Nat) :
    List α → List Nat → List α → Option (List α)
  | [], _, d => some d
  | v :: rest, sums, d =>
    match setOpt d (sums.getD (f v level) 0) v with
    | none => none
    | some d1 => scatterGo f level rest (bump sums (f v level)) d1

/-- `out_of_place_sort`: scatter each source element to
`dst[prefix_sums[byte]]`, incrementing that prefix sum. -/
def outOfPlaceSort (f : α → Nat → Nat) (src dst : List α) (counts : List Nat)
    (level : Nat) : Option (List α) :=
  scatterGo f level src (getPrefixSums counts) dst

/-- The write trace of `out_of_place_sort`: the `(index, value)` pairs
stored into `dst_bucket`, in execution order (derived from `scatterGo` by
dropping the destination array). -/
def scatterTrace (f : α → Nat → Nat) (level : Nat) :
    List α → List Nat → List (Nat × α)
  | [], _ => []
  | v :: rest, sums =>
    (sums.getD (f v level) 0, v) :: scatterTrace f level rest (bump sums (f v level))

def outOfPlaceTrace (f : α → Nat → Nat) (src : List α) (counts : List Nat)
    (level : Nat) : List (Nat × α) :=
  scatterTrace f level src (getPrefixSums counts)

/-- Replay a write trace onto a destination list. -/
def applyWrites (d : List α) (tr : List (Nat × α)) : List α :=
  tr.foldl (fun d pv => d.set pv.1 pv.2) d

/-! ## The sorting pipeline (lib.rs)

Elements are the integer keys themselves, modelled as `Nat`, with the
`RadixKey` implementation passed as `f : Nat → Nat → Nat` and its
`LEVELS` constant as `levels`. -/

/-- `slice::sort_unstable` (standard library, outside this crate): sorts in
ascending `Ord` order, which for the integer keys is numeric order; on
`Nat` keys equal elements are identical, so any correct comparison sort
computes the same list. -/
def sortUnstable (l : List Nat) : List Nat :=
  List.insertionSort (· ≤ ·) l

/-- `calculate_position` (lib.rs lines 133-139). -/
def calculatePosition (msb level bucket : Nat) : Nat :=
  256 * 256 * level + 256 * bucket + msb

/-- `get_count_map` (lib.rs lines 154-163): `LEVELS * 256 * 256` zeroed
counts. -/
def getCountMap (levels : Nat) : List Nat :=
  List.replicate (levels * 256 * 256) 0

/-- `get_tmp_bucket` (lib.rs lines 279-291): an uninitialized scratch
buffer of exactly `len` elements.  Every slot is written before it is
read on every reachable path, so the arbitrary fill value 0 is never
observed. -/
def getTmpBucket (len : Nat) : List Nat :=
  List.replicate len 0

/-- `get_all_counts` (lib.rs lines 258-277): one pass computing the MSB
histogram together with the flat `(level-1, byte, msb)`-indexed count map
for all deeper levels.  `par_get_all_counts` (lines 165-256, chosen above
100 000 elements) computes the same two histograms by a deterministic
chunked sum. -/
def getAllCounts (f : Nat → Nat → Nat) (levels : Nat) (bucket : List Nat) :
    List Nat × List Nat :=
  bucket.foldl
    (fun st v =>
      let msb := f v 0
      let msb_counts := bump st.1 msb
      let lsb_counts := (List.range' 1 (levels - 1)).foldl
        (fun ls i => bump ls (calculatePosition msb (i - 1) (f v i))) st.2
      (msb_counts, lsb_counts))
    (zeros256, getCountMap levels)

/-- `bucket.arbitrary_chunks_mut(counts)`: carve `l` into one chunk per
count.  Chunks after the data is exhausted are empty and are skipped by
the crate's iterator; they correspond to empty sub-buckets on which every
consumer in lib.rs is a no-op, so they are kept here to preserve the
`enumerate()` indices. -/
def splitByCounts : List Nat → List α → List (List α)
  | [], _ => []
  | c :: rest, l => l.take c :: splitByCounts rest (l.drop c)

/-- The 256-entry `local_counts` / `prefix_sums` loop of
`lsb_radix_sort_bucket` (lib.rs lines 518-527): read
`counts[calculate_position(msb, level - 1, i)]` for `i in 0..256`
(panicking on an out-of-bounds position) and scan the running total. -/
def lsbPrefixSums (counts : List Nat) (msb lm1 : Nat) : Option (List Nat) :=
  ((List.range 256).foldl
    (fun st i =>
      match st with
      | none => none
      | some su =>
        match counts[calculatePosition msb lm1 i]? with
        | none => none
        | some count => some (su.1 ++ [su.2], su.2 + count))
    (some ([], 0))).map Prod.fst

/-- `lsb_radix_sort_bucket` (lib.rs lines 504-546): buckets below 32
elements fall back to `sort_unstable`; otherwise scatter by the current
level using the precomputed flat counts, copy back, and recurse on
`level - 1` until `level == 1`.  At `level = 0` the source computes
`level - 1` on a `usize`, an arithmetic underflow (debug panic; in
release the wrapped value indexes `counts` out of bounds), modelled by
`none`. -/
def lsbRadixSortBucket (f : Nat → Nat → Nat) (level : Nat) (bucket tmp : List Nat)
    (msb : Nat) (counts : List Nat) : Option (List Nat) :=
  if bucket.length < 32 then some (sortUnstable bucket)
  else
    match level with
    | 0 => none
    | l + 1 =>
      match lsbPrefixSums counts msb l with
      | none => none
      | some prefix_sums =>
        match scatterGo f (l + 1) bucket prefix_sums tmp with
        | none => none
        | some scattered =>
          match l with
          | 0 => some scattered
          | l1 + 1 => lsbRadixSortBucket f (l1 + 1) scattered scattered msb counts

/-- The per-MSB recursion shared by `radix_sort_bucket` (lib.rs lines
494-501) and the tail of `scanning_radix_sort_bucket` (lines 458-465):
run `lsb_radix_sort_bucket` at level `LEVELS - 1` on each of the 256
MSB sub-buckets, with its scratch chunk of matching length (whose
contents are never read), and keep the sub-buckets in MSB order. -/
def sortChunksLsbGo (f : Nat → Nat → Nat) (levels : Nat) (counts : List Nat) :
    Nat → List (List Nat) → Option (List Nat)
  | _, [] => some []
  | msb, c :: rest =>
    match lsbRadixSortBucket f (levels - 1) c (getTmpBucket c.length) msb counts with
    | none => none
    | some s =>
      match sortChunksLsbGo f levels counts (msb + 1) rest with
      | none => none
      | some r => some (s ++ r)

/-- `radix_sort_bucket` (lib.rs lines 468-502): stable scatter by the MSB
into the scratch buffer, copy back, then LSB-sort each MSB sub-bucket. -/
def radixSortBucket (f : Nat → Nat → Nat) (levels : Nat) (bucket tmp : List Nat)
    (msb_counts lsb_counts : List Nat) : Option (List Nat) :=
  match scatterGo f 0 bucket (getPrefixSums msb_counts) tmp with
  | none => none
  | some scattered =>
    sortChunksLsbGo f levels lsb_counts 0 (splitByCounts msb_counts scattered)

/-- `scanning_radix_sort_bucket` (lib.rs lines 341-466).  The cooperative
scanning pass is concurrent; its per-bucket outcome is deterministic as a
multiset — after termination the 256 slabs hold exactly the elements with
that MSB.  Modelled from the spec (§4.7 "sub-buckets are exactly the 256
slabs"): the slab contents are taken in first-occurrence order (any order
yields the same final result, because the subsequent LSB passes sort each
slab completely).  The per-MSB tail is the same as in
`radix_sort_bucket`. -/
def scanningRadixSortBucket (f : Nat → Nat → Nat) (levels : Nat)
    (bucket msb_counts lsb_counts : List Nat) : Option (List Nat) :=
  let partitioned := (List.range 256).flatMap (fun b => bucket.filter (fun v => f v 0 = b))
  sortChunksLsbGo f levels lsb_counts 0 (splitByCounts msb_counts partitioned)

/-- `radix_sort_bucket_start` (lib.rs lines 293-314): below 32 elements,
`sort_unstable`; otherwise count (serially below 100 000 elements, in
parallel above — both produce the same histograms) and run either the
scanning sort (above 1 000 000 elements) or the out-of-place radix sort. -/
def radixSortBucketStart (f : Nat → Nat → Nat) (levels : Nat) (bucket : List Nat) :
    Option (List Nat) :=
  if bucket.length < 32 then some (sortUnstable bucket)
  else
    let counts := getAllCounts f levels bucket
    if 1000000 < bucket.length then
      scanningRadixSortBucket f levels bucket counts.1 counts.2
    else
      radixSortBucket f levels bucket (getTmpBucket bucket.length) counts.1 counts.2

/-- `radix_sort_inner` (lib.rs lines 548-557), the body of
`radix_sort_unstable`: reject `LEVELS == 0` with a panic (`none`) before
looking at the bucket, else run `radix_sort_bucket_start`. -/
def radixSortInner (f : Nat → Nat → Nat) (levels : Nat) (bucket : List Nat) :
    Option (List Nat) :=
  if levels = 0 then none
  else radixSortBucketStart f levels bucket

/-! ## The director (spec §4.11) -/

/-- The action the director takes on a bucket at one level. -/
inductive DirectorAction where
  | done
  | recurseWhole (level : Nat)
  | dispatch (alg : Algorithm)
  deriving DecidableEq, Repr

/-- Modelled from the spec: the §4.11 director of the current core is
missing from `src/` (`src/director.rs` is an earlier threshold dispatcher
whose callees `scanning_radix_sort`, `msb_ska_sort` and
`lsb_radix_sort_adapter` are not in the tree).  Steps 1-4 are modelled
here with the chosen action returned as data: (1) return when
`len ≤ 1`; (2) compute counts (`get_counts`, which is in `src/`);
(3) if homogenous (`is_homogenous_bucket`, in `src/`) and
`level < LEVELS − 1`, recurse once at `level + 1` on the whole bucket
without moving anything; (4) otherwise dispatch on the tuner's choice. -/
def directorStep (f : α → Nat → Nat) (levels : Nat) (p : TuningParams)
    (bucket : List α) (level : Nat) : DirectorAction :=
  if bucket.length ≤ 1 then DirectorAction.done
  else
    let counts := getCounts f bucket level
    if isHomogenousBucket counts ∧ level < levels - 1 then
      DirectorAction.recurseWhole (level + 1)
    else DirectorAction.dispatch (pickAlgorithm p counts)

/-! ## Derived vocabulary used by the theorems -/

/-- The number of elements of `l` whose `level`-byte is `b` — the
"256-histogram" entry of the spec's counting invariants. -/
def countByte (f : α → Nat → Nat) (level b : Nat) (l : List α) : Nat :=
  (l.filter (fun x => f x level == b)).length

/-- Which of its three paths `radix_sort_bucket_start` (lib.rs lines
293-314) takes, as a function of the bucket length: the comparison sort
below 32, the scanning sort above 1 000 000, the out-of-place radix sort
in between. -/
inductive StartPath where
  | comparative
  | scanning
  | radix
  deriving DecidableEq, Repr

def radixSortBucketStartPath (len : Nat) : StartPath :=
  if len < 32 then StartPath.comparative
  else if 1000000 < len then StartPath.scanning
  else StartPath.radix

/-! ## Lemmas: count arrays -/

theorem getD_eq_getElem {α : Type _} (l : List α) (dfl : α) (i : Nat)
    (h : i < l.length) : l.getD i dfl = l[i] := by
  rw [List.getD_eq_getElem?_getD, List.getElem?_eq_getElem h]
  rfl

theorem getD_eq_zero_of_le {α : Type _} (l : List α) (dfl : α) (i : Nat)
    (h : l.length ≤ i) : l.getD i dfl = dfl := by
  rw [List.getD_eq_getElem?_getD, List.getElem?_eq_none h]
  rfl

theorem length_bump (c : List Nat) (b : Nat) : (bump c b).length = c.length := by
  simp [bump]

theorem getD_bump_self (c : List Nat) (b : Nat) (hb : b < c.length) :
    (bump c b).getD b 0 = c.getD b 0 + 1 := by
  rw [bump, List.getD_eq_getElem?_getD, List.getElem?_set_self hb]
  rfl

theorem getD_bump_ne (c : List Nat) (x b : Nat) (h : x ≠ b) :
    (bump c x).getD b 0 = c.getD b 0 := by
  rw [bump, List.getD_eq_getElem?_getD, List.getElem?_set_ne h,
    ← List.getD_eq_getElem?_getD]

theorem getD_bump_ite (c : List Nat) (x b : Nat) (hb : b < c.length) :
    (bump c x).getD b 0 = c.getD b 0 + if x = b then 1 else 0 := by
  by_cases h : x = b
  · subst h
    rw [getD_bump_self c x hb, if_pos rfl]
  · rw [getD_bump_ne c x b h, if_neg h]
    omega

theorem getD_bump_le (c : List Nat) (x b : Nat) :
    c.getD b 0 ≤ (bump c x).getD b 0 := by
  by_cases hb : b < c.length
  · by_cases h : x = b
    · subst h
      rw [getD_bump_self c x hb]
      omega
    · rw [getD_bump_ne c x b h]
  · rw [getD_eq_zero_of_le c 0 b (le_of_not_lt hb)]
    exact Nat.zero_le _

theorem length_zeros256 : zeros256.length = 256 := by
  rw [zeros256, List.length_replicate]

theorem getD_zeros256 (b : Nat) : zeros256.getD b 0 = 0 := by
  rw [zeros256, List.getD_eq_getElem?_getD, List.getElem?_replicate]
  by_cases hb : b < 256 <;> simp [hb]

theorem length_addCounts (a b : List Nat) :
    (addCounts a b).length = min a.length b.length := by
  simp [addCounts]

theorem getD_addCounts (a b : List Nat) (i : Nat) (ha : i < a.length)
    (hb : i < b.length) : (addCounts a b).getD i 0 = a.getD i 0 + b.getD i 0 := by
  rw [getD_eq_getElem _ _ _ (by simp [length_addCounts]; omega),
    getD_eq_getElem _ _ _ ha, getD_eq_getElem _ _ _ hb]
  simp [addCounts]

/-! ## Lemmas: `countByte` -/

theorem countByte_nil (f : α → Nat → Nat) (level b : Nat) :
    countByte f level b [] = 0 := rfl

theorem countByte_cons (f : α → Nat → Nat) (level b : Nat) (x : α) (l : List α) :
    countByte f level b (x :: l) =
      (if f x level = b then 1 else 0) + countByte f level b l := by
  by_cases h : f x level = b
  · simp [countByte, List.filter_cons, h]
    omega
  · simp [countByte, List.filter_cons, h]

theorem countByte_append (f : α → Nat → Nat) (level b : Nat) (l1 l2 : List α) :
    countByte f level b (l1 ++ l2) = countByte f level b l1 + countByte f level b l2 := by
  simp [countByte, List.filter_append]

theorem countByte_singleton (f : α → Nat → Nat) (level b : Nat) (x : α) :
    countByte f level b [x] = if f x level = b then 1 else 0 := by
  rw [countByte_cons, countByte_nil]
  simp

/-- Summing the per-byte counts over all 256 byte values counts every
element once. -/
theorem sum_countByte (f : α → Nat → Nat) (level : Nat) (l : List α)
    (hf : ∀ x ∈ l, f x level < 256) :
    (∑ b ∈ Finset.range 256, countByte f level b l) = l.length := by
  induction l with
  | nil => simp [countByte_nil]
  | cons x t ih =>
    have hx : f x level < 256 := hf x (by simp)
    have ht : ∀ y ∈ t, f y level < 256 := fun y hy => hf y (by simp [hy])
    have : (∑ b ∈ Finset.range 256, countByte f level b (x :: t)) =
        (∑ b ∈ Finset.range 256, ((if f x level = b then 1 else 0) + countByte f level b t)) := by
      refine Finset.sum_congr rfl fun b _ => ?_
      rw [countByte_cons]
    rw [this, Finset.sum_add_distrib, ih ht]
    have : (∑ b ∈ Finset.range 256, if f x level = b then 1 else 0) = 1 := by
      have hsum := Finset.sum_ite_eq (Finset.range 256) (f x level) (fun _ => (1 : Nat))
      rw [hsum, if_pos (Finset.mem_range.mpr hx)]
    rw [this]
    simp [List.length_cons]
    omega

/-! ## Lemmas: prefix sums -/

theorem length_prefixScan (t : Nat) (counts : List Nat) :
    (prefixScan t counts).length = counts.length := by
  induction counts generalizing t with
  | nil => rfl
  | cons c rest ih => simp [prefixScan, ih]

theorem getD_prefixScan (counts : List Nat) :
    ∀ (t b : Nat), b < counts.length →
      (prefixScan t counts).getD b 0 = t + (counts.take b).sum := by
  induction counts with
  | nil => intro t b hb; simp at hb
  | cons c rest ih =>
    intro t b hb
    match b with
    | 0 => simp [prefixScan]
    | b + 1 =>
      have hb' : b < rest.length := by simpa using hb
      show (prefixScan (t + c) rest).getD b 0 = _
      rw [ih (t + c) b hb']
      simp [List.take_succ_cons]
      omega

theorem getD_getPrefixSums (counts : List Nat) (b : Nat) (hb : b < counts.length) :
    (getPrefixSums counts).getD b 0 = (counts.take b).sum := by
  rw [getPrefixSums, getD_prefixScan counts 0 b hb]
  omega

theorem length_getPrefixSums (counts : List Nat) :
    (getPrefixSums counts).length = counts.length :=
  length_prefixScan 0 counts

theorem sum_take_mono (l : List Nat) (i j : Nat) (h : i ≤ j) :
    (l.take i).sum ≤ (l.take j).sum := by
  have h1 : (l.take j).take i = l.take i := by
    rw [List.take_take]
    congr 1
    omega
  calc (l.take i).sum = ((l.take j).take i).sum := by rw [h1]
    _ ≤ ((l.take j).take i).sum + ((l.take j).drop i).sum := Nat.le_add_right _ _
    _ = (l.take j).sum := by rw [← List.sum_append, List.take_append_drop]

theorem sum_take_le (l : List Nat) (i : Nat) : (l.take i).sum ≤ l.sum := by
  by_cases h : i ≤ l.length
  · calc (l.take i).sum ≤ (l.take l.length).sum := sum_take_mono l i l.length h
      _ = l.sum := by rw [List.take_length]
  · rw [List.take_of_length_le (by omega)]

theorem sum_take_succ_getD (l : List Nat) (b : Nat) (hb : b < l.length) :
    (l.take (b + 1)).sum = (l.take b).sum + l.getD b 0 := by
  rw [List.sum_take_succ l b hb, getD_eq_getElem l 0 b hb]

/-- A list's sum is the sum of its entries by index. -/
theorem sum_eq_sum_getD (l : List Nat) :
    l.sum = ∑ i ∈ Finset.range l.length, l.getD i 0 := by
  induction l with
  | nil => simp
  | cons c rest ih =>
    rw [List.sum_cons, ih, List.length_cons, Finset.sum_range_succ']
    simp [List.getD_cons_succ, List.getD_cons_zero]
    omega

/-! ## Lemmas: chunk iterators -/

theorem chunksExactGo_succ_pos (fuel n : Nat) (l : List α) (h : 0 < n ∧ n ≤ l.length) :
    chunksExactGo (fuel + 1) n l =
      (l.take n :: (chunksExactGo fuel n (l.drop n)).1,
       (chunksExactGo fuel n (l.drop n)).2) := by
  simp only [chunksExactGo, if_pos h]

theorem chunksExactGo_succ_neg (fuel n : Nat) (l : List α) (h : ¬(0 < n ∧ n ≤ l.length)) :
    chunksExactGo (fuel + 1) n l = ([], l) := by
  simp only [chunksExactGo, if_neg h]

theorem chunksExactGo_spec (n : Nat) :
    ∀ (fuel : Nat) (l : List α), l.length ≤ fuel →
      (chunksExactGo fuel n l).1.flatten ++ (chunksExactGo fuel n l).2 = l ∧
      ∀ ch ∈ (chunksExactGo fuel n l).1, ch.length = n := by
  intro fuel
  induction fuel with
  | zero =>
    intro l hl
    exact ⟨by simp [chunksExactGo], by simp [chunksExactGo]⟩
  | succ fuel ih =>
    intro l hl
    by_cases h : 0 < n ∧ n ≤ l.length
    · have hdrop : (l.drop n).length ≤ fuel := by
        rw [List.length_drop]
        omega
      have hrec := ih (l.drop n) hdrop
      rw [chunksExactGo_succ_pos fuel n l h]
      constructor
      · rw [List.flatten_cons, List.append_assoc, hrec.1, List.take_append_drop]
      · intro ch hch
        rcases List.mem_cons.mp hch with h1 | h1
        · subst h1
          rw [List.length_take]
          omega
        · exact hrec.2 ch h1
    · rw [chunksExactGo_succ_neg fuel n l h]
      exact ⟨rfl, by simp⟩

theorem chunksExact_flatten (n : Nat) (l : List α) :
    (chunksExact n l).1.flatten ++ (chunksExact n l).2 = l :=
  (chunksExactGo_spec n l.length l le_rfl).1

theorem chunksExact_mem_length (n : Nat) (l : List α) :
    ∀ ch ∈ (chunksExact n l).1, ch.length = n :=
  (chunksExactGo_spec n l.length l le_rfl).2

theorem chunksOfGo_flatten (n : Nat) :
    ∀ (fuel : Nat) (l : List α), 0 < n → l.length ≤ fuel →
      (chunksOfGo fuel n l).flatten = l := by
  intro fuel
  induction fuel with
  | zero =>
    intro l hn hl
    have : l = [] := List.length_eq_zero.mp (by omega)
    subst this
    rfl
  | succ fuel ih =>
    intro l hn hl
    by_cases h : 0 < n ∧ 0 < l.length
    · simp only [chunksOfGo, if_pos h, List.flatten_cons]
      rw [ih (l.drop n) hn (by rw [List.length_drop]; omega), List.take_append_drop]
    · have : l = [] := by
        rcases Nat.eq_zero_or_pos l.length with h1 | h1
        · exact List.length_eq_zero.mp h1
        · exact absurd ⟨hn, h1⟩ h
      subst this
      simp [chunksOfGo]

theorem chunksOf_flatten (n : Nat) (l : List α) (hn : 0 < n) :
    (chunksOf n l).flatten = l :=
  chunksOfGo_flatten n l.length l hn le_rfl

theorem chunksOf_ne_nil (n : Nat) (l : List α) (hn : 0 < n) (hl : l ≠ []) :
    chunksOf n l ≠ [] := by
  intro h
  have := chunksOf_flatten n l hn
  rw [h] at this
  exact hl this.symm

/-! ## Lemmas: histogram folds and `getCounts` -/

theorem foldl_bump_length (f : α → Nat → Nat) (level : Nat) (l : List α)
    (c : List Nat) :
    (l.foldl (fun c v => bump c (f v level)) c).length = c.length := by
  induction l generalizing c with
  | nil => rfl
  | cons x t ih => rw [List.foldl_cons, ih, length_bump]

theorem foldl_bump_getD (f : α → Nat → Nat) (level : Nat) (l : List α) :
    ∀ (c : List Nat) (b : Nat), b < c.length →
      (l.foldl (fun c v => bump c (f v level)) c).getD b 0 =
        c.getD b 0 + countByte f level b l := by
  induction l with
  | nil => intro c b hb; simp [countByte_nil]
  | cons x t ih =>
    intro c b hb
    rw [List.foldl_cons, ih (bump c (f x level)) b (by rw [length_bump]; exact hb),
      getD_bump_ite c (f x level) b hb, countByte_cons]
    omega

theorem length_eq_four_exists (ch : List α) (h : ch.length = 4) :
    ∃ a b c d, ch = [a, b, c, d] := by
  match ch with
  | [a, b, c, d] => exact ⟨a, b, c, d, rfl⟩

theorem chunkFold_lengths (f : α → Nat → Nat) (level : Nat) (CL : List (List α)) :
    ∀ (s1 s2 s3 s4 : List Nat), (∀ ch ∈ CL, ch.length = 4) →
      (CL.foldl (getCountsChunkStep f level) (s1, s2, s3, s4)).1.length = s1.length ∧
      (CL.foldl (getCountsChunkStep f level) (s1, s2, s3, s4)).2.1.length = s2.length ∧
      (CL.foldl (getCountsChunkStep f level) (s1, s2, s3, s4)).2.2.1.length = s3.length ∧
      (CL.foldl (getCountsChunkStep f level) (s1, s2, s3, s4)).2.2.2.length = s4.length := by
  induction CL with
  | nil => intro s1 s2 s3 s4 hCL; exact ⟨rfl, rfl, rfl, rfl⟩
  | cons ch rest ih =>
    intro s1 s2 s3 s4 hCL
    obtain ⟨a, a2, a3, a4, rfl⟩ := length_eq_four_exists ch (hCL ch (by simp))
    have hstep : getCountsChunkStep f level (s1, s2, s3, s4) [a, a2, a3, a4] =
        (bump s1 (f a level), bump s2 (f a2 level),
         bump s3 (f a3 level), bump s4 (f a4 level)) := rfl
    rw [List.foldl_cons, hstep]
    have hrest : ∀ ch ∈ rest, ch.length = 4 := fun ch hch => hCL ch (by simp [hch])
    have h := ih (bump s1 (f a level)) (bump s2 (f a2 level)) (bump s3 (f a3 level))
      (bump s4 (f a4 level)) hrest
    exact ⟨h.1.trans (length_bump _ _), h.2.1.trans (length_bump _ _),
      h.2.2.1.trans (length_bump _ _), h.2.2.2.trans (length_bump _ _)⟩

theorem chunkFold_getD_sum (f : α → Nat → Nat) (level : Nat) (CL : List (List α)) :
    ∀ (s1 s2 s3 s4 : List Nat) (b : Nat),
      (∀ ch ∈ CL, ch.length = 4) →
      b < s1.length → b < s2.length → b < s3.length → b < s4.length →
      (CL.foldl (getCountsChunkStep f level) (s1, s2, s3, s4)).1.getD b 0 +
        (CL.foldl (getCountsChunkStep f level) (s1, s2, s3, s4)).2.1.getD b 0 +
        (CL.foldl (getCountsChunkStep f level) (s1, s2, s3, s4)).2.2.1.getD b 0 +
        (CL.foldl (getCountsChunkStep f level) (s1, s2, s3, s4)).2.2.2.getD b 0 =
      s1.getD b 0 + s2.getD b 0 + s3.getD b 0 + s4.getD b 0 +
        countByte f level b CL.flatten := by
  induction CL with
  | nil => intro s1 s2 s3 s4 b hCL h1 h2 h3 h4; simp [countByte_nil]
  | cons ch rest ih =>
    intro s1 s2 s3 s4 b hCL h1 h2 h3 h4
    obtain ⟨a, a2, a3, a4, rfl⟩ := length_eq_four_exists ch (hCL ch (by simp))
    have hstep : getCountsChunkStep f level (s1, s2, s3, s4) [a, a2, a3, a4] =
        (bump s1 (f a level), bump s2 (f a2 level),
         bump s3 (f a3 level), bump s4 (f a4 level)) := rfl
    rw [List.foldl_cons, hstep]
    have hrest : ∀ ch ∈ rest, ch.length = 4 := fun ch hch => hCL ch (by simp [hch])
    rw [ih (bump s1 (f a level)) (bump s2 (f a2 level)) (bump s3 (f a3 level))
      (bump s4 (f a4 level)) b hrest
      ((length_bump s1 (f a level)).symm ▸ h1)
      ((length_bump s2 (f a2 level)).symm ▸ h2)
      ((length_bump s3 (f a3 level)).symm ▸ h3)
      ((length_bump s4 (f a4 level)).symm ▸ h4)]
    rw [getD_bump_ite _ _ _ h1, getD_bump_ite _ _ _ h2, getD_bump_ite _ _ _ h3,
      getD_bump_ite _ _ _ h4, List.flatten_cons, countByte_append,
      countByte_cons, countByte_cons, countByte_cons, countByte_singleton]
    omega

theorem getCounts_length (f : α → Nat → Nat) (bucket : List α) (level : Nat) :
    (getCounts f bucket level).length = 256 := by
  unfold getCounts
  have h := chunkFold_lengths f level (chunksExact 4 bucket).1 zeros256 zeros256
    zeros256 zeros256 (chunksExact_mem_length 4 bucket)
  rw [length_addCounts, length_addCounts, length_addCounts, foldl_bump_length,
    h.1, h.2.1, h.2.2.1, h.2.2.2, length_zeros256]
  omega

theorem getCounts_getD (f : α → Nat → Nat) (bucket : List α) (level b : Nat)
    (hb : b < 256) : (getCounts f bucket level).getD b 0 = countByte f level b bucket := by
  unfold getCounts
  have hb' : b < zeros256.length := by rw [length_zeros256]; exact hb
  have hlen := chunkFold_lengths f level (chunksExact 4 bucket).1 zeros256 zeros256
    zeros256 zeros256 (chunksExact_mem_length 4 bucket)
  have hsum := chunkFold_getD_sum f level (chunksExact 4 bucket).1 zeros256 zeros256
    zeros256 zeros256 b (chunksExact_mem_length 4 bucket) hb' hb' hb' hb'
  rw [getD_zeros256] at hsum
  have hl1 : ((chunksExact 4 bucket).1.foldl (getCountsChunkStep f level)
      (zeros256, zeros256, zeros256, zeros256)).1.length = 256 :=
    hlen.1.trans length_zeros256
  have hrem := foldl_bump_getD f level (chunksExact 4 bucket).2
    ((chunksExact 4 bucket).1.foldl (getCountsChunkStep f level)
      (zeros256, zeros256, zeros256, zeros256)).1 b (by rw [hl1]; exact hb)
  have hremlen : ((chunksExact 4 bucket).2.foldl (fun c v => bump c (f v level))
      ((chunksExact 4 bucket).1.foldl (getCountsChunkStep f level)
        (zeros256, zeros256, zeros256, zeros256)).1).length = 256 := by
    rw [foldl_bump_length, hl1]
  have hflat : countByte f level b (chunksExact 4 bucket).1.flatten +
      countByte f level b (chunksExact 4 bucket).2 = countByte f level b bucket := by
    rw [← countByte_append, chunksExact_flatten]
  rw [getD_addCounts _ _ _
      (by rw [length_addCounts, length_addCounts, hremlen, hlen.2.1.trans length_zeros256,
        hlen.2.2.1.trans length_zeros256]; omega)
      (by rw [hlen.2.2.2.trans length_zeros256]; exact hb),
    getD_addCounts _ _ _
      (by rw [length_addCounts, hremlen, hlen.2.1.trans length_zeros256]; omega)
      (by rw [hlen.2.2.1.trans length_zeros256]; exact hb),
    getD_addCounts _ _ _ (by rw [hremlen]; exact hb)
      (by rw [hlen.2.1.trans length_zeros256]; exact hb),
    hrem]
  omega

/-! ## Lemmas: tiled counting -/

theorem foldl_addCounts_length (tiles : List (List Nat)) :
    ∀ init : List Nat, init.length = 256 → (∀ t ∈ tiles, t.length = 256) →
      (tiles.foldl addCounts init).length = 256 := by
  induction tiles with
  | nil => intro init h _; exact h
  | cons t rest ih =>
    intro init hinit hmem
    rw [List.foldl_cons]
    exact ih (addCounts init t)
      (by rw [length_addCounts, hinit, hmem t (by simp)]; omega)
      (fun u hu => hmem u (by simp [hu]))

theorem foldl_addCounts_getD (tiles : List (List Nat)) :
    ∀ (init : List Nat) (b : Nat), init.length = 256 →
      (∀ t ∈ tiles, t.length = 256) → b < 256 →
      (tiles.foldl addCounts init).getD b 0 =
        init.getD b 0 + (tiles.map (fun t => t.getD b 0)).sum := by
  induction tiles with
  | nil => intro init b _ _ _; simp
  | cons t rest ih =>
    intro init b hinit hmem hb
    rw [List.foldl_cons,
      ih (addCounts init t) b
        (by rw [length_addCounts, hinit, hmem t (by simp)]; omega)
        (fun u hu => hmem u (by simp [hu])) hb,
      getD_addCounts init t b (by omega) (by rw [hmem t (by simp)]; exact hb),
      List.map_cons, List.sum_cons]
    omega

theorem sum_countByte_chunks (f : α → Nat → Nat) (level b : Nat)
    (chunks : List (List α)) :
    (chunks.map (fun ch => countByte f level b ch)).sum =
      countByte f level b chunks.flatten := by
  induction chunks with
  | nil => simp [countByte_nil]
  | cons ch rest ih =>
    rw [List.map_cons, List.sum_cons, List.flatten_cons, countByte_append, ih]

theorem columnSum_map_getCounts (f : α → Nat → Nat) (level : Nat)
    (chunks : List (List α)) :
    columnSum (chunks.map (fun ch => getCounts f ch level)) =
      getCounts f chunks.flatten level := by
  have hmem : ∀ t ∈ chunks.map (fun ch => getCounts f ch level), t.length = 256 := by
    intro t ht
    obtain ⟨ch, _, rfl⟩ := List.mem_map.mp ht
    exact getCounts_length f ch level
  have hlenL : (columnSum (chunks.map (fun ch => getCounts f ch level))).length = 256 :=
    foldl_addCounts_length _ _ length_zeros256 hmem
  apply List.ext_getElem
  · rw [hlenL, getCounts_length]
  · intro i hi1 hi2
    have hi : i < 256 := by rw [hlenL] at hi1; exact hi1
    rw [← getD_eq_getElem _ 0 i hi1, ← getD_eq_getElem _ 0 i hi2]
    rw [columnSum, foldl_addCounts_getD _ _ _ length_zeros256 hmem hi, getD_zeros256,
      getCounts_getD f _ level i hi, List.map_map]
    have hmc : chunks.map ((fun t => t.getD i 0) ∘ (fun ch => getCounts f ch level)) =
        chunks.map (fun ch => countByte f level i ch) :=
      List.map_congr_left fun ch _ => getCounts_getD f ch level i hi
    rw [hmc, sum_countByte_chunks]
    omega

theorem parGetCounts_eq (threads : Nat) (f : α → Nat → Nat) (bucket : List α)
    (level : Nat) : parGetCounts threads f bucket level = getCounts f bucket level := by
  unfold parGetCounts
  by_cases h : bucket.length < 400000
  · rw [if_pos h]
  · rw [if_neg h]
    have h1 : 0 < bucket.length / threads / 8 + 1 := Nat.succ_pos _
    have hcs := columnSum_map_getCounts f level
      (chunksOf (bucket.length / threads / 8 + 1) bucket)
    rw [chunksOf_flatten _ _ h1] at hcs
    exact hcs

theorem getTileCounts_eq (threads : Nat) (f : α → Nat → Nat) (bucket : List α)
    (S level : Nat) :
    getTileCounts threads f bucket S level =
      (chunksOf S bucket).map (fun ch => getCounts f ch level) := by
  unfold getTileCounts
  exact List.map_congr_left fun ch _ => parGetCounts_eq threads f ch level

theorem addCounts_zeros_left (t : List Nat) (h : t.length = 256) :
    addCounts zeros256 t = t := by
  apply List.ext_getElem
  · rw [length_addCounts, length_zeros256, h]
    omega
  · intro i hi1 hi2
    have hi : i < 256 := by rw [h] at hi2; exact hi2
    rw [← getD_eq_getElem _ 0 i hi1, ← getD_eq_getElem _ 0 i hi2,
      getD_addCounts _ _ _ (by rw [length_zeros256]; exact hi) (by rw [h]; exact hi),
      getD_zeros256]
    omega

/-! ## Lemmas: byte extraction and lexicographic order -/

theorem length_beBytes (w : Nat) : ∀ v : Nat, (beBytes w v).length = w := by
  induction w with
  | zero => intro v; rfl
  | succ w ih =>
    intro v
    show (beBytes w (v / 256) ++ [v % 256]).length = w + 1
    rw [List.length_append, ih]
    rfl

theorem getD_beBytes (w : Nat) : ∀ (v l : Nat), l < w →
    (beBytes w v).getD l 0 = v / 2 ^ ((w - 1 - l) * 8) % 256 := by
  induction w with
  | zero => intro v l hl; omega
  | succ w ih =>
    intro v l hl
    show (beBytes w (v / 256) ++ [v % 256]).getD l 0 = _
    by_cases h : l < w
    · rw [List.getD_append _ _ _ _ (by rw [length_beBytes]; exact h), ih (v / 256) l h,
        Nat.div_div_eq_div_mul]
      have hpow : (256 : Nat) * 2 ^ ((w - 1 - l) * 8) = 2 ^ ((w + 1 - 1 - l) * 8) := by
        rw [show (256 : Nat) = 2 ^ 8 from rfl, ← pow_add]
        congr 1
        omega
      rw [hpow]
    · have hlw : l = w := by omega
      rw [List.getD_append_right _ _ _ _ (by rw [length_beBytes]; omega)]
      rw [length_beBytes]
      have hz : (w + 1 - 1 - l) * 8 = 0 := by omega
      have hlw0 : l - w = 0 := by omega
      rw [hz, pow_zero, Nat.div_one, hlw0]
      rfl

theorem getLevelUint_eq_div (w v l : Nat) :
    getLevelUint w v l = v / 2 ^ ((w - 1 - l) * 8) % 256 := by
  rw [getLevelUint, Nat.shiftRight_eq_div_pow]

theorem getLevelUint_eq_beBytes (w v l : Nat) (hl : l < w) :
    getLevelUint w v l = (beBytes w v).getD l 0 := by
  rw [getLevelUint_eq_div, getD_beBytes w v l hl]

theorem getLevelUint_eq_byte (w v l : Nat) :
    getLevelUint w v l = v / 256 ^ (w - 1 - l) % 256 := by
  rw [getLevelUint_eq_div]
  congr 2
  rw [mul_comm, pow_mul]
  norm_num

theorem getLevelUint_succ_succ (w v l : Nat) :
    getLevelUint (w + 1) v (l + 1) = getLevelUint w v l := by
  rw [getLevelUint_eq_div, getLevelUint_eq_div]
  have h : w + 1 - 1 - (l + 1) = w - 1 - l := by omega
  rw [h]

theorem getLevelUint_mod_high (w v l : Nat) (hl : l < w) :
    getLevelUint w (v % 2 ^ (8 * w)) l = getLevelUint w v l := by
  rw [getLevelUint_eq_div, getLevelUint_eq_div]
  have hsle : (w - 1 - l) * 8 + 8 ≤ 8 * w := by omega
  have hsplit : (2 : Nat) ^ (8 * w) = 2 ^ ((w - 1 - l) * 8) * 2 ^ (8 * w - (w - 1 - l) * 8) := by
    rw [← pow_add]
    congr 1
    omega
  rw [hsplit, Nat.mod_mul_right_div_self]
  have hdvd : (256 : Nat) ∣ 2 ^ (8 * w - (w - 1 - l) * 8) := by
    rw [show (256 : Nat) = 2 ^ 8 from rfl]
    exact pow_dvd_pow 2 (by omega)
  rw [Nat.mod_mod_of_dvd _ hdvd]

theorem levelTuple_succ (w v : Nat) :
    levelTuple (w + 1) v = getLevelUint (w + 1) v 0 :: levelTuple w (v % 2 ^ (8 * w)) := by
  rw [levelTuple, List.range_succ_eq_map, List.map_cons]
  congr 1
  rw [List.map_map, levelTuple]
  apply List.map_congr_left
  intro l hl
  have hlw : l < w := List.mem_range.mp hl
  show getLevelUint (w + 1) v (l + 1) = getLevelUint w (v % 2 ^ (8 * w)) l
  rw [getLevelUint_succ_succ, getLevelUint_mod_high w v l hlw]

theorem getLevelUint_head (w v : Nat) (hv : v < 2 ^ (8 * (w + 1))) :
    getLevelUint (w + 1) v 0 = v / 2 ^ (8 * w) := by
  rw [getLevelUint_eq_div]
  have he : (w + 1 - 1 - 0) * 8 = 8 * w := by omega
  rw [he]
  apply Nat.mod_eq_of_lt
  rw [Nat.div_lt_iff_lt_mul (Nat.pos_pow_of_pos _ (by norm_num))]
  have : (256 : Nat) * 2 ^ (8 * w) = 2 ^ (8 * (w + 1)) := by
    rw [show (256 : Nat) = 2 ^ 8 from rfl, ← pow_add]
    congr 1
    omega
  omega

theorem lexLe_cons (x y : Nat) (xs ys : List Nat) :
    lexLe (x :: xs) (y :: ys) = (decide (x < y) || (decide (x = y) && lexLe xs ys)) := rfl

theorem le_iff_div_lt_or_mod_le (M a b : Nat) (hM : 0 < M) :
    a ≤ b ↔ (a / M < b / M ∨ (a / M = b / M ∧ a % M ≤ b % M)) := by
  constructor
  · intro h
    rcases Nat.lt_or_ge (a / M) (b / M) with h1 | h1
    · exact Or.inl h1
    · have h2 : a / M = b / M := le_antisymm (Nat.div_le_div_right h) h1
      have ha := Nat.div_add_mod a M
      have hb := Nat.div_add_mod b M
      rw [h2] at ha
      right
      exact ⟨h2, by omega⟩
  · intro h
    have ha := Nat.div_add_mod a M
    have hb := Nat.div_add_mod b M
    have ham : a % M < M := Nat.mod_lt a hM
    rcases h with h1 | ⟨h1, h2⟩
    · have hmul : M * (a / M + 1) ≤ M * (b / M) := Nat.mul_le_mul_left M h1
      have hX : M * (a / M + 1) = M * (a / M) + M := by ring
      omega
    · rw [h1] at ha
      omega

theorem lexLe_iff_le (w : Nat) : ∀ (v v2 : Nat), v < 2 ^ (8 * w) → v2 < 2 ^ (8 * w) →
    (lexLe (levelTuple w v) (levelTuple w v2) = true ↔ v ≤ v2) := by
  induction w with
  | zero =>
    intro v v2 h1 h2
    have hv : v = 0 := by simpa using h1
    have hv2 : v2 = 0 := by simpa using h2
    subst hv; subst hv2
    simp [levelTuple, lexLe]
  | succ w ih =>
    intro v v2 h1 h2
    have hMpos : 0 < 2 ^ (8 * w) := Nat.pos_pow_of_pos _ (by norm_num)
    have hm1 : v % 2 ^ (8 * w) < 2 ^ (8 * w) := Nat.mod_lt _ hMpos
    have hm2 : v2 % 2 ^ (8 * w) < 2 ^ (8 * w) := Nat.mod_lt _ hMpos
    rw [levelTuple_succ, levelTuple_succ, lexLe_cons, getLevelUint_head w v h1,
      getLevelUint_head w v2 h2]
    simp only [Bool.or_eq_true, Bool.and_eq_true, decide_eq_true_eq]
    rw [ih _ _ hm1 hm2]
    exact (le_iff_div_lt_or_mod_le (2 ^ (8 * w)) v v2 hMpos).symm

/-! ## Lemmas: homogeneity -/

theorem isHomogenousGo_iff (l : List Nat) :
    ∀ seen : Bool, (isHomogenousGo seen l = true ↔
      l.countP (fun c => decide (0 < c)) + (if seen then 1 else 0) ≤ 1) := by
  induction l with
  | nil =>
    intro seen
    cases seen <;> simp [isHomogenousGo]
  | cons c rest ih =>
    intro seen
    by_cases hc : 0 < c
    · cases seen
      · simp only [isHomogenousGo, if_pos hc, Bool.false_eq_true, if_neg (by simp : ¬False)]
        rw [ih true, List.countP_cons]
        simp [hc]
      · simp only [isHomogenousGo, if_pos hc]
        rw [List.countP_cons]
        simp [hc]
    · simp only [isHomogenousGo, if_neg hc]
      rw [ih seen, List.countP_cons]
      simp [hc]

theorem countP_eq_sum_getD (p : Nat → Bool) (l : List Nat) :
    l.countP p = ∑ i ∈ Finset.range l.length, if p (l.getD i 0) then 1 else 0 := by
  induction l with
  | nil => simp
  | cons c rest ih =>
    rw [List.countP_cons, ih, List.length_cons, Finset.sum_range_succ']
    simp [List.getD_cons_succ, List.getD_cons_zero]

theorem countByte_eq_zero_iff (f : α → Nat → Nat) (level b : Nat) (l : List α) :
    countByte f level b l = 0 ↔ ∀ y ∈ l, f y level ≠ b := by
  rw [countByte, List.length_eq_zero, List.filter_eq_nil_iff]
  constructor
  · intro h y hy
    have := h y hy
    simpa using this
  · intro h y hy
    simp [h y hy]

set_option maxRecDepth 4096 in
set_option maxHeartbeats 1000000 in
/-- All elements sharing the same level-byte makes the `get_counts`
histogram homogenous in the sense of `is_homogenous_bucket`. -/
theorem isHomogenous_getCounts_of_shared (f : α → Nat → Nat) (bucket : List α)
    (level : Nat)
    (hshare : ∀ x ∈ bucket, ∀ y ∈ bucket, f x level = f y level)
    (hf : ∀ x ∈ bucket, f x level < 256) :
    isHomogenousBucket (getCounts f bucket level) = true := by
  rw [isHomogenousBucket, isHomogenousGo_iff]
  simp only [if_neg (by simp : ¬(false = true))]
  rw [countP_eq_sum_getD, getCounts_length, Nat.add_zero]
  have hterm : ∀ i ∈ Finset.range 256,
      (if (decide (0 < (getCounts f bucket level).getD i 0)) = true then 1 else 0) =
      (if (decide (0 < countByte f level i bucket)) = true then 1 else 0) := by
    intro i hi
    rw [getCounts_getD f bucket level i (Finset.mem_range.mp hi)]
  rw [Finset.sum_congr rfl hterm]
  cases bucket with
  | nil =>
    have : ∀ i ∈ Finset.range 256,
        (if (decide (0 < countByte f level i ([] : List α))) = true then 1 else 0) = 0 := by
      intro i _
      simp [countByte_nil]
    rw [Finset.sum_congr rfl this]
    simp
  | cons x t =>
    have hb0 : f x level < 256 := hf x (by simp)
    have hle : ∀ i ∈ Finset.range 256,
        (if (decide (0 < countByte f level i (x :: t))) = true then 1 else 0) ≤
        (if i = f x level then 1 else 0) := by
      intro i _
      by_cases hi : i = f x level
      · simp only [hi, if_pos rfl]
        split_ifs <;> omega
      · have hz : countByte f level i (x :: t) = 0 := by
          rw [countByte_eq_zero_iff]
          intro y hy
          rw [hshare y hy x (by simp)]
          exact fun h => hi h.symm
        simp [hz, hi]
    refine le_trans (Finset.sum_le_sum hle) ?_
    have hsum := Finset.sum_ite_eq' (Finset.range 256) (f x level) (fun _ => (1 : Nat))
    rw [hsum, if_pos (Finset.mem_range.mpr hb0)]

/-! ## Lemmas: the out-of-place scatter -/

theorem scatterTrace_nil (f : α → Nat → Nat) (level : Nat) (sums : List Nat) :
    scatterTrace f level [] sums = [] := rfl

theorem scatterTrace_cons (f : α → Nat → Nat) (level : Nat) (v : α) (rest : List α)
    (sums : List Nat) :
    scatterTrace f level (v :: rest) sums =
      (sums.getD (f v level) 0, v) :: scatterTrace f level rest (bump sums (f v level)) := rfl

theorem scatterGo_cons (f : α → Nat → Nat) (level : Nat) (v : α) (rest : List α)
    (sums : List Nat) (d : List α) :
    scatterGo f level (v :: rest) sums d =
      match setOpt d (sums.getD (f v level) 0) v with
      | none => none
      | some d1 => scatterGo f level rest (bump sums (f v level)) d1 := rfl

theorem scatterTrace_map_snd (f : α → Nat → Nat) (level : Nat) :
    ∀ (rem : List α) (sums : List Nat),
      (scatterTrace f level rem sums).map Prod.snd = rem := by
  intro rem
  induction rem with
  | nil => intro sums; rfl
  | cons v rest ih =>
    intro sums
    rw [scatterTrace_cons, List.map_cons, ih]

theorem scatterTrace_length (f : α → Nat → Nat) (level : Nat) (rem : List α)
    (sums : List Nat) : (scatterTrace f level rem sums).length = rem.length := by
  have h := congrArg List.length (scatterTrace_map_snd f level rem sums)
  rw [List.length_map] at h
  exact h

theorem scatterTrace_pos_lb (f : α → Nat → Nat) (level : Nat) :
    ∀ (rem : List α) (sums : List Nat) (pv : Nat × α),
      pv ∈ scatterTrace f level rem sums → sums.getD (f pv.2 level) 0 ≤ pv.1 := by
  intro rem
  induction rem with
  | nil =>
    intro sums pv h
    rw [scatterTrace_nil] at h
    simp at h
  | cons v rest ih =>
    intro sums pv h
    rw [scatterTrace_cons] at h
    rcases List.mem_cons.mp h with h1 | h1
    · subst h1
      exact le_rfl
    · exact le_trans (getD_bump_le sums (f v level) (f pv.2 level)) (ih _ pv h1)

/-- One scatter step preserves the prefix-sum invariant. -/
theorem scatterInv_step (f : α → Nat → Nat) (level : Nat) (counts : List Nat)
    (done : List α) (v : α) (sums : List Nat)
    (_hv : f v level < 256) (hsl : sums.length = 256)
    (hsg : ∀ b, b < 256 → sums.getD b 0 = (counts.take b).sum + countByte f level b done) :
    (bump sums (f v level)).length = 256 ∧
    ∀ b, b < 256 → (bump sums (f v level)).getD b 0 =
      (counts.take b).sum + countByte f level b (done ++ [v]) := by
  constructor
  · rw [length_bump]
    exact hsl
  · intro b hb
    rw [getD_bump_ite sums (f v level) b (by rw [hsl]; exact hb), hsg b hb,
      countByte_append, countByte_singleton]
    omega

theorem scatterTrace_pos_ub (f : α → Nat → Nat) (level : Nat) (counts : List Nat)
    (src : List α) (hf : ∀ x ∈ src, f x level < 256) :
    ∀ (rem done : List α) (sums : List Nat),
      done ++ rem = src →
      sums.length = 256 →
      (∀ b, b < 256 → sums.getD b 0 = (counts.take b).sum + countByte f level b done) →
      ∀ pv ∈ scatterTrace f level rem sums,
        (counts.take (f pv.2 level)).sum + countByte f level (f pv.2 level) done ≤ pv.1 ∧
        pv.1 < (counts.take (f pv.2 level)).sum + countByte f level (f pv.2 level) src := by
  intro rem
  induction rem with
  | nil =>
    intro done sums hds hsl hsg pv h
    rw [scatterTrace_nil] at h
    simp at h
  | cons v rest ih =>
    intro done sums hds hsl hsg pv h
    have hv : f v level < 256 := hf v (by rw [← hds]; simp)
    rw [scatterTrace_cons] at h
    rcases List.mem_cons.mp h with h1 | h1
    · subst h1
      dsimp only
      constructor
      · rw [hsg _ hv]
      · rw [hsg _ hv]
        have hsplit : countByte f level (f v level) src =
            countByte f level (f v level) done +
              countByte f level (f v level) (v :: rest) := by
          rw [← hds, countByte_append]
        rw [hsplit, countByte_cons, if_pos rfl]
        omega
    · have hstep := scatterInv_step f level counts done v sums hv hsl hsg
      have hds' : (done ++ [v]) ++ rest = src := by
        rw [List.append_assoc]
        simpa using hds
      have hrec := ih (done ++ [v]) (bump sums (f v level)) hds' hstep.1 hstep.2 pv h1
      constructor
      · refine le_trans ?_ hrec.1
        rw [countByte_append]
        omega
      · exact hrec.2

theorem scatterTrace_mem_snd (f : α → Nat → Nat) (level : Nat) (rem : List α)
    (sums : List Nat) (pv : Nat × α) (h : pv ∈ scatterTrace f level rem sums) :
    pv.2 ∈ rem := by
  rw [← scatterTrace_map_snd f level rem sums]
  exact List.mem_map_of_mem Prod.snd h

theorem scatterTrace_nodup (f : α → Nat → Nat) (level : Nat) (counts : List Nat)
    (src : List α) (hcl : counts.length = 256)
    (hc : ∀ b, b < 256 → counts.getD b 0 = countByte f level b src)
    (hf : ∀ x ∈ src, f x level < 256) :
    ∀ (rem done : List α) (sums : List Nat),
      done ++ rem = src →
      sums.length = 256 →
      (∀ b, b < 256 → sums.getD b 0 = (counts.take b).sum + countByte f level b done) →
      ((scatterTrace f level rem sums).map Prod.fst).Nodup := by
  have hkey : ∀ b1 b2, b1 < 256 → b1 < b2 →
      (counts.take b1).sum + countByte f level b1 src ≤ (counts.take b2).sum := by
    intro b1 b2 hb1 hlt
    rw [← hc b1 hb1, ← sum_take_succ_getD counts b1 (by rw [hcl]; exact hb1)]
    exact sum_take_mono counts (b1 + 1) b2 (by omega)
  intro rem
  induction rem with
  | nil =>
    intro done sums hds hsl hsg
    rw [scatterTrace_nil]
    exact List.nodup_nil
  | cons v rest ih =>
    intro done sums hds hsl hsg
    have hv : f v level < 256 := hf v (by rw [← hds]; simp)
    have hstep := scatterInv_step f level counts done v sums hv hsl hsg
    have hds' : (done ++ [v]) ++ rest = src := by
      rw [List.append_assoc]
      simpa using hds
    rw [scatterTrace_cons, List.map_cons]
    refine List.nodup_cons.mpr ⟨?_, ih (done ++ [v]) (bump sums (f v level)) hds' hstep.1 hstep.2⟩
    intro hmem
    obtain ⟨pv, hpv, hfst⟩ := List.mem_map.mp hmem
    have hb : f pv.2 level < 256 := by
      refine hf pv.2 ?_
      rw [← hds']
      have := scatterTrace_mem_snd f level rest (bump sums (f v level)) pv hpv
      simp [this]
    have hub := scatterTrace_pos_ub f level counts src hf rest (done ++ [v])
      (bump sums (f v level)) hds' hstep.1 hstep.2 pv hpv
    have hp0 : sums.getD (f v level) 0 =
        (counts.take (f v level)).sum + countByte f level (f v level) done := hsg _ hv
    have hp0ub : sums.getD (f v level) 0 <
        (counts.take (f v level)).sum + countByte f level (f v level) src := by
      have hsplit : countByte f level (f v level) src =
          countByte f level (f v level) done + countByte f level (f v level) (v :: rest) := by
        rw [← hds, countByte_append]
      rw [hp0, hsplit, countByte_cons, if_pos rfl]
      omega
    by_cases hbb : f pv.2 level = f v level
    · have hlb := scatterTrace_pos_lb f level rest (bump sums (f v level)) pv hpv
      rw [hbb] at hlb
      have hbump : (bump sums (f v level)).getD (f v level) 0 =
          sums.getD (f v level) 0 + 1 :=
        getD_bump_self sums (f v level) (by rw [hsl]; exact hv)
      omega
    · have hlb : (counts.take (f pv.2 level)).sum ≤ pv.1 := by
        refine le_trans ?_ hub.1
        omega
      rcases Nat.lt_or_ge (f pv.2 level) (f v level) with hlt | hge
      · have := hkey (f pv.2 level) (f v level) hb hlt
        omega
      · have hlt : f v level < f pv.2 level := by omega
        have := hkey (f v level) (f pv.2 level) hv hlt
        omega

theorem counts_sum_eq_length (f : α → Nat → Nat) (level : Nat) (counts : List Nat)
    (src : List α) (hcl : counts.length = 256)
    (hc : ∀ b, b < 256 → counts.getD b 0 = countByte f level b src)
    (hf : ∀ x ∈ src, f x level < 256) :
    counts.sum = src.length := by
  rw [sum_eq_sum_getD, hcl]
  rw [Finset.sum_congr rfl (fun b hb => hc b (Finset.mem_range.mp hb))]
  exact sum_countByte f level src hf

/-- The initial scatter state satisfies the prefix-sum invariant. -/
theorem getPrefixSums_inv (f : α → Nat → Nat) (level : Nat) (counts : List Nat)
    (hcl : counts.length = 256) :
    (getPrefixSums counts).length = 256 ∧
    ∀ b, b < 256 → (getPrefixSums counts).getD b 0 =
      (counts.take b).sum + countByte f level b ([] : List α) := by
  constructor
  · rw [length_getPrefixSums, hcl]
  · intro b hb
    rw [getD_getPrefixSums counts b (by rw [hcl]; exact hb), countByte_nil]
    omega

theorem outOfPlaceTrace_mem_lt (f : α → Nat → Nat) (level : Nat) (counts : List Nat)
    (src : List α) (hcl : counts.length = 256)
    (hc : ∀ b, b < 256 → counts.getD b 0 = countByte f level b src)
    (hf : ∀ x ∈ src, f x level < 256) :
    ∀ pv ∈ outOfPlaceTrace f src counts level, pv.1 < src.length := by
  intro pv hpv
  have hinv := getPrefixSums_inv f level counts hcl
  have hub := scatterTrace_pos_ub f level counts src hf src [] (getPrefixSums counts)
    rfl hinv.1 hinv.2 pv hpv
  have hb : f pv.2 level < 256 :=
    hf pv.2 (scatterTrace_mem_snd f level src (getPrefixSums counts) pv hpv)
  have h1 : (counts.take (f pv.2 level)).sum + countByte f level (f pv.2 level) src =
      (counts.take (f pv.2 level + 1)).sum := by
    rw [sum_take_succ_getD counts _ (by rw [hcl]; exact hb), hc _ hb]
  have h2 : (counts.take (f pv.2 level + 1)).sum ≤ counts.sum := sum_take_le counts _
  have h3 := counts_sum_eq_length f level counts src hcl hc hf
  omega

theorem outOfPlaceTrace_fst_perm (f : α → Nat → Nat) (level : Nat) (counts : List Nat)
    (src : List α) (hcl : counts.length = 256)
    (hc : ∀ b, b < 256 → counts.getD b 0 = countByte f level b src)
    (hf : ∀ x ∈ src, f x level < 256) :
    ((outOfPlaceTrace f src counts level).map Prod.fst).Perm (List.range src.length) := by
  have hinv := getPrefixSums_inv f level counts hcl
  have hnd : ((outOfPlaceTrace f src counts level).map Prod.fst).Nodup :=
    scatterTrace_nodup f level counts src hcl hc hf src [] (getPrefixSums counts)
      rfl hinv.1 hinv.2
  have hsub : (outOfPlaceTrace f src counts level).map Prod.fst ⊆
      List.range src.length := by
    intro p hp
    obtain ⟨pv, hpv, rfl⟩ := List.mem_map.mp hp
    exact List.mem_range.mpr (outOfPlaceTrace_mem_lt f level counts src hcl hc hf pv hpv)
  refine (List.subperm_of_subset hnd hsub).perm_of_length_le ?_
  rw [List.length_range, List.length_map, outOfPlaceTrace, scatterTrace_length]

theorem scatterGo_eq_applyWrites (f : α → Nat → Nat) (level : Nat) :
    ∀ (rem : List α) (sums : List Nat) (d : List α),
      (∀ pv ∈ scatterTrace f level rem sums, pv.1 < d.length) →
      scatterGo f level rem sums d = some (applyWrites d (scatterTrace f level rem sums)) := by
  intro rem
  induction rem with
  | nil => intro sums d h; rfl
  | cons v rest ih =>
    intro sums d h
    have hpos : sums.getD (f v level) 0 < d.length :=
      h (sums.getD (f v level) 0, v)
        (by rw [scatterTrace_cons]; exact List.mem_cons_self _ _)
    have hset : setOpt d (sums.getD (f v level) 0) v =
        some (d.set (sums.getD (f v level) 0) v) := by
      rw [setOpt, if_pos hpos]
    rw [scatterGo_cons, hset]
    show scatterGo f level rest (bump sums (f v level))
        (d.set (sums.getD (f v level) 0) v) = _
    have htail : ∀ pv ∈ scatterTrace f level rest (bump sums (f v level)),
        pv.1 < (d.set (sums.getD (f v level) 0) v).length := by
      intro pv hpv
      rw [List.length_set]
      exact h pv (by rw [scatterTrace_cons]; exact List.mem_cons_of_mem _ hpv)
    rw [ih _ _ htail, scatterTrace_cons]
    rfl

theorem set_replace_perm (d : List α) (p : Nat) (v : α) (hp : p < d.length) :
    (d[p] :: d.set p v).Perm (v :: d) := by
  have hset : d.set p v = d.take p ++ v :: d.drop (p + 1) := by
    rw [List.set_eq_take_append_cons_drop, if_pos hp]
  have hd : d = d.take p ++ d[p] :: d.drop (p + 1) := by
    conv_lhs => rw [← List.take_append_drop p d]
    rw [List.getElem_cons_drop d p hp]
  rw [hset]
  conv_rhs => rw [hd]
  refine List.Perm.trans (List.Perm.cons _ List.perm_middle) ?_
  refine List.Perm.trans (List.Perm.swap _ _ _) ?_
  exact List.Perm.cons _ List.perm_middle.symm

theorem multiset_set_add (d : List α) (p : Nat) (v : α) (hp : p < d.length) :
    (↑(d.set p v) : Multiset α) + {d[p]} = ↑d + {v} := by
  have h := Multiset.coe_eq_coe.mpr (set_replace_perm d p v hp)
  rw [← Multiset.cons_coe, ← Multiset.cons_coe, ← Multiset.singleton_add,
    ← Multiset.singleton_add] at h
  rw [add_comm (↑(d.set p v) : Multiset α) _, add_comm (↑d : Multiset α) _]
  exact h

theorem applyWrites_multiset (v0 : α) :
    ∀ (tr : List (Nat × α)) (d : List α),
      (∀ p ∈ tr.map Prod.fst, p < d.length) → (tr.map Prod.fst).Nodup →
      (↑(applyWrites d tr) : Multiset α) + ↑(tr.map (fun pv => d.getD pv.1 v0)) =
        ↑(tr.map Prod.snd) + ↑d := by
  intro tr
  induction tr with
  | nil => intro d h1 h2; simp [applyWrites]
  | cons pv rest ih =>
    obtain ⟨p, v⟩ := pv
    intro d h1 h2
    have hp : p < d.length := h1 p (by simp)
    rw [List.map_cons] at h2
    have hnd := List.nodup_cons.mp h2
    have hmap : rest.map (fun pv => d.getD pv.1 v0) =
        rest.map (fun pv => (d.set p v).getD pv.1 v0) := by
      apply List.map_congr_left
      intro qv hq
      have hne : p ≠ qv.1 := by
        intro he
        apply hnd.1
        rw [he]
        exact List.mem_map.mpr ⟨qv, hq, rfl⟩
      rw [List.getD_eq_getElem?_getD, List.getD_eq_getElem?_getD,
        List.getElem?_set_ne hne]
    have ihr := ih (d.set p v)
      (fun q hq => by rw [List.length_set]; exact h1 q (by simp [hq])) hnd.2
    have happ : applyWrites d ((p, v) :: rest) = applyWrites (d.set p v) rest := rfl
    rw [happ, List.map_cons, List.map_cons]
    rw [← Multiset.cons_coe, ← Multiset.cons_coe, ← Multiset.singleton_add,
      ← Multiset.singleton_add]
    have hgd : d.getD p v0 = d[p] := getD_eq_getElem d v0 p hp
    calc (↑(applyWrites (d.set p v) rest) : Multiset α) +
          ({d.getD p v0} + ↑(rest.map fun pv => d.getD pv.1 v0))
        = (↑(applyWrites (d.set p v) rest) +
            ↑(rest.map fun pv => (d.set p v).getD pv.1 v0)) + {d[p]} := by
          rw [← hmap, hgd]
          abel
      _ = (↑(rest.map Prod.snd) + ↑(d.set p v)) + {d[p]} := by rw [ihr]
      _ = ↑(rest.map Prod.snd) + (↑(d.set p v) + {d[p]}) := by abel
      _ = ↑(rest.map Prod.snd) + (↑d + {v}) := by rw [multiset_set_add d p v hp]
      _ = {v} + (↑(rest.map Prod.snd) + ↑d) := by abel

theorem map_getD_range (d : List α) (v0 : α) :
    (List.range d.length).map (fun p => d.getD p v0) = d := by
  induction d with
  | nil => rfl
  | cons a t ih =>
    rw [List.length_cons, List.range_succ_eq_map, List.map_cons, List.map_map]
    have hcomp : ((fun p => (a :: t).getD p v0) ∘ Nat.succ) = fun p => t.getD p v0 := by
      funext p
      rfl
    rw [hcomp, ih]
    rfl

/-! ## Claim theorems -/

/-- C1: the spec claims that `radix_sort_unstable` terminates with a
sorted permutation for every slice of a `RadixKey` type.  The code
violates this for `u8` (`LEVELS = 1`): any bucket of 32 or more elements
sharing their MSB reaches `lsb_radix_sort_bucket` with `level = 0`,
where `level - 1` underflows `usize` (a panic in debug builds; in release
the wrapped value indexes `counts` out of bounds, also a panic).  This
theorem evaluates the embedded pipeline at the failing input `[0u8; 32]`:
the run aborts (`none`) instead of returning the already-sorted bucket. -/
theorem radix_sort_unstable_u8_32_panics :
    radixSortInner getLevelU8 1 (List.replicate 32 0) = none := by
  rfl

/-- C2: `Tuner::pick_algorithm` returns exactly the algorithm of the
spec's decision table (`specPickAlgorithm`), for every parameter block
with `level < total_levels` and every count array, in both standard and
in-place mode. -/
theorem pick_algorithm_matches_spec (p : TuningParams) (counts : List Nat)
    (_h : p.level < p.total_levels) :
    pickAlgorithm p counts = specPickAlgorithm p counts := by
  by_cases hip : p.in_place
  · simp only [pickAlgorithm, pickAlgorithmInPlace, specPickAlgorithm, hip,
      eq_self_iff_true, if_true]
    split_ifs <;> first | rfl | omega
  · have hip' : p.in_place = false := by
      cases hp : p.in_place
      · rfl
      · exact absurd hp hip
    simp only [pickAlgorithm, pickAlgorithmStandard, specPickAlgorithm, hip',
      Bool.false_eq_true, if_false]

theorem pick_algorithm_matches_spec_witness :
    (⟨8, 1, 4, 300000, 600000, true⟩ : TuningParams).level <
      (⟨8, 1, 4, 300000, 600000, true⟩ : TuningParams).total_levels ∧
    pickAlgorithm ⟨8, 1, 4, 300000, 600000, true⟩ zeros256 =
      specPickAlgorithm ⟨8, 1, 4, 300000, 600000, true⟩ zeros256 :=
  ⟨by decide,
   pick_algorithm_matches_spec ⟨8, 1, 4, 300000, 600000, true⟩ zeros256 (by decide)⟩

/-- C3: if `counts` is the 256-histogram of `src` at `level`
(`counts[b]` = number of elements with level byte `b`) and `dst` has the
same length as `src`, then `out_of_place_sort` writes every index of
`dst` exactly once (its write trace's positions are a permutation of
`0..len`, so every index is in bounds and no slot is read before being
written), it succeeds, and `dst` ends as a permutation of `src`. -/
theorem out_of_place_sort_writes_once (f : α → Nat → Nat) (src dst : List α)
    (counts : List Nat) (level : Nat)
    (hf : ∀ x ∈ src, f x level < 256)
    (hlen : dst.length = src.length)
    (hcl : counts.length = 256)
    (hc : ∀ b, b < 256 → counts.getD b 0 = countByte f level b src) :
    ((outOfPlaceTrace f src counts level).map Prod.fst).Perm (List.range src.length) ∧
    outOfPlaceSort f src dst counts level =
      some (applyWrites dst (outOfPlaceTrace f src counts level)) ∧
    (applyWrites dst (outOfPlaceTrace f src counts level)).Perm src := by
  have hperm := outOfPlaceTrace_fst_perm f level counts src hcl hc hf
  have hlt : ∀ pv ∈ outOfPlaceTrace f src counts level, pv.1 < dst.length := by
    intro pv hpv
    rw [hlen]
    exact outOfPlaceTrace_mem_lt f level counts src hcl hc hf pv hpv
  have heq : outOfPlaceSort f src dst counts level =
      some (applyWrites dst (outOfPlaceTrace f src counts level)) :=
    scatterGo_eq_applyWrites f level src (getPrefixSums counts) dst hlt
  refine ⟨hperm, heq, ?_⟩
  cases src with
  | nil =>
    have hd : dst = [] := List.length_eq_zero.mp (by rw [hlen]; rfl)
    subst hd
    exact List.Perm.refl _
  | cons x t =>
    have hnodup : ((outOfPlaceTrace f (x :: t) counts level).map Prod.fst).Nodup :=
      (hperm.nodup_iff).mpr (List.nodup_range _)
    have hbound : ∀ p ∈ (outOfPlaceTrace f (x :: t) counts level).map Prod.fst,
        p < dst.length := by
      intro p hp
      obtain ⟨pv, hpv, rfl⟩ := List.mem_map.mp hp
      exact hlt pv hpv
    have hM := applyWrites_multiset x (outOfPlaceTrace f (x :: t) counts level) dst
      hbound hnodup
    have hsnd : (outOfPlaceTrace f (x :: t) counts level).map Prod.snd = x :: t :=
      scatterTrace_map_snd f level (x :: t) (getPrefixSums counts)
    have hmapmap : ((outOfPlaceTrace f (x :: t) counts level).map Prod.fst).map
        (fun p => dst.getD p x) =
        (outOfPlaceTrace f (x :: t) counts level).map (fun pv => dst.getD pv.1 x) := by
      rw [List.map_map]
      rfl
    have hold : ((outOfPlaceTrace f (x :: t) counts level).map
        (fun pv => dst.getD pv.1 x)).Perm dst := by
      rw [← hmapmap]
      have hpm := hperm.map (fun p => dst.getD p x)
      have hrange : (List.range (x :: t).length).map (fun p => dst.getD p x) = dst := by
        rw [show (x :: t).length = dst.length from hlen.symm]
        exact map_getD_range dst x
      rw [hrange] at hpm
      exact hpm
    have hM2 : (↑(applyWrites dst (outOfPlaceTrace f (x :: t) counts level)) : Multiset α) +
        ↑((outOfPlaceTrace f (x :: t) counts level).map fun pv => dst.getD pv.1 x) =
        ↑(x :: t) + ↑dst := by
      rw [hM, hsnd]
    rw [Multiset.coe_eq_coe.mpr hold] at hM2
    exact Multiset.coe_eq_coe.mp (add_right_cancel hM2)

set_option maxRecDepth 100000 in
theorem out_of_place_sort_writes_once_witness :
    ((outOfPlaceTrace (getLevelUint 1) [3, 1, 2, 1]
        (((zeros256.set 1 2).set 2 1).set 3 1) 0).map Prod.fst).Perm (List.range 4) ∧
    outOfPlaceSort (getLevelUint 1) [3, 1, 2, 1] [0, 0, 0, 0]
        (((zeros256.set 1 2).set 2 1).set 3 1) 0 =
      some (applyWrites [0, 0, 0, 0] (outOfPlaceTrace (getLevelUint 1) [3, 1, 2, 1]
        (((zeros256.set 1 2).set 2 1).set 3 1) 0)) ∧
    (applyWrites [0, 0, 0, 0] (outOfPlaceTrace (getLevelUint 1) [3, 1, 2, 1]
        (((zeros256.set 1 2).set 2 1).set 3 1) 0)).Perm [3, 1, 2, 1] :=
  out_of_place_sort_writes_once (getLevelUint 1) [3, 1, 2, 1] [0, 0, 0, 0]
    (((zeros256.set 1 2).set 2 1).set 3 1) 0
    (by decide) (by decide) (by decide) (by decide)

/-- C4: for the provided unsigned-integer `RadixKey` implementations
(`u16`, `u32`, `u64`, `u128` and 64-bit `usize`, i.e. `LEVELS` `w ∈
{2, 4, 8, 16}`), `get_level(value, l)` at a level `l < LEVELS` is the
`l`-th byte of the value's big-endian representation (`beBytes`), which
is byte number `LEVELS − 1 − l` in the usual weight numbering
`byte_k(v) = v / 256^k % 256`; level 0 is the most significant byte
(index 0 of the big-endian string). -/
theorem get_level_is_big_endian_byte (w v l : Nat)
    (_hw : w = 2 ∨ w = 4 ∨ w = 8 ∨ w = 16) (hl : l < w) :
    getLevelUint w v l = (beBytes w v).getD l 0 ∧
    getLevelUint w v l = v / 256 ^ (w - 1 - l) % 256 :=
  ⟨getLevelUint_eq_beBytes w v l hl, getLevelUint_eq_byte w v l⟩

theorem get_level_is_big_endian_byte_witness :
    (getLevelUint 2 43981 1 = (beBytes 2 43981).getD 1 0 ∧
     getLevelUint 2 43981 1 = 43981 / 256 ^ (2 - 1 - 1) % 256) :=
  get_level_is_big_endian_byte 2 43981 1 (by decide) (by decide)

set_option maxRecDepth 100000 in
/-- C5 counterexample: a homogenous singleton bucket at level 0 with
`LEVELS = 4` satisfies the claim's premises (all elements share the
level byte, and `level < LEVELS − 1`), yet the director returns at its
step 1 (`len ≤ 1`) without recursing at `level + 1`. -/
theorem director_homogenous_singleton_counterexample :
    isHomogenousBucket (getCounts (getLevelUint 4) [(5 : Nat)] 0) = true ∧
    (0 : Nat) < 4 - 1 ∧
    directorStep (getLevelUint 4) 4 ⟨8, 0, 4, 1, 1, false⟩ [(5 : Nat)] 0 =
      DirectorAction.done ∧
    DirectorAction.done ≠ DirectorAction.recurseWhole 1 := by
  decide

/-- C5 (amended): for every bucket of length at least 2 whose elements
all share their byte at the current level, with `level < LEVELS − 1`,
the (spec-modelled) director recurses once at `level + 1` on the whole
bucket without moving any element. -/
theorem director_recurses_on_homogenous (f : α → Nat → Nat) (levels : Nat)
    (p : TuningParams) (bucket : List α) (level : Nat)
    (hlen : 1 < bucket.length)
    (hshare : ∀ x ∈ bucket, ∀ y ∈ bucket, f x level = f y level)
    (hf : ∀ x ∈ bucket, f x level < 256)
    (hl : level < levels - 1) :
    directorStep f levels p bucket level = DirectorAction.recurseWhole (level + 1) := by
  simp only [directorStep]
  rw [if_neg (by omega)]
  rw [if_pos ⟨isHomogenous_getCounts_of_shared f bucket level hshare hf, hl⟩]

theorem director_recurses_on_homogenous_witness :
    directorStep (getLevelUint 4) 4 ⟨8, 0, 4, 2, 2, false⟩ [(3 : Nat), 3] 0 =
      DirectorAction.recurseWhole 1 :=
  director_recurses_on_homogenous (getLevelUint 4) 4 ⟨8, 0, 4, 2, 2, false⟩
    [(3 : Nat), 3] 0 (by decide) (by decide) (by decide) (by decide)

/-- C6 counterexample: a 100-element bucket is within the claim's
"at most 128 elements" scope, yet `radix_sort_bucket_start` takes the
radix path — its comparison-sort cutoff is `len < 32` (lib.rs line 297),
not 128 (128 is only the unused tuner's `ComparativeSort` threshold). -/
theorem comparative_threshold_counterexample :
    (List.replicate 100 (0 : Nat)).length ≤ 128 ∧
    radixSortBucketStartPath (List.replicate 100 (0 : Nat)).length = StartPath.radix ∧
    StartPath.radix ≠ StartPath.comparative := by
  decide

/-- C6 (amended): buckets of fewer than 32 elements (not 128) are sorted
by the standard in-place unstable comparison sort; that sort returns a
sorted permutation, and on the provided integer keys its total order
(numeric `≤`) coincides with comparing the concatenation of all levels
from MSB to LSB lexicographically. -/
theorem comparative_sort_below_32 :
    (∀ len : Nat, len < 32 → radixSortBucketStartPath len = StartPath.comparative) ∧
    (∀ l : List Nat, (sortUnstable l).Perm l ∧ (sortUnstable l).Sorted (· ≤ ·)) ∧
    (∀ (w v v2 : Nat), v < 2 ^ (8 * w) → v2 < 2 ^ (8 * w) →
      (lexLe (levelTuple w v) (levelTuple w v2) = true ↔ v ≤ v2)) := by
  refine ⟨?_, ?_, ?_⟩
  · intro len h
    rw [radixSortBucketStartPath, if_pos h]
  · intro l
    exact ⟨List.perm_insertionSort _ l, List.sorted_insertionSort _ l⟩
  · exact fun w => lexLe_iff_le w

theorem comparative_sort_below_32_witness :
    radixSortBucketStartPath 10 = StartPath.comparative ∧
    (lexLe (levelTuple 2 5) (levelTuple 2 300) = true ↔ (5 : Nat) ≤ 300) :=
  ⟨comparative_sort_below_32.1 10 (by decide),
   comparative_sort_below_32.2.2 2 5 300 (by decide) (by decide)⟩

/-- C7 counterexample: on the empty bucket `get_tile_counts` returns no
tiles, and `aggregate_tile_counts` panics on its `tile_counts[0]` index
(modelled `none`), so it does not return the whole-bucket histogram as
the claim's "equivalently" clause asserts for every input bucket. -/
theorem aggregate_tile_counts_empty_counterexample :
    aggregateTileCounts (getTileCounts 1 (getLevelUint 4) ([] : List Nat) 1 0) = none ∧
    aggregateTileCounts (getTileCounts 1 (getLevelUint 4) ([] : List Nat) 1 0) ≠
      some (getCounts (getLevelUint 4) ([] : List Nat) 0) := by
  decide

/-- C7 (amended): for every bucket, tile size `S ≥ 1` and level, the
columnar (per-index) sum of the histograms returned by `get_tile_counts`
equals `get_counts` of the whole bucket; and for every nonempty bucket,
`aggregate_tile_counts` applied to the tile counts returns that same
whole-bucket histogram (on the empty bucket it panics instead). -/
theorem tile_counts_columnar_sum (threads : Nat) (f : α → Nat → Nat)
    (bucket : List α) (S level : Nat) (hS : 1 ≤ S) :
    columnSum (getTileCounts threads f bucket S level) = getCounts f bucket level ∧
    (bucket ≠ [] →
      aggregateTileCounts (getTileCounts threads f bucket S level) =
        some (getCounts f bucket level)) := by
  have hS0 : 0 < S := hS
  have hmain : columnSum (getTileCounts threads f bucket S level) =
      getCounts f bucket level := by
    rw [getTileCounts_eq]
    have hcs := columnSum_map_getCounts f level (chunksOf S bucket)
    rw [chunksOf_flatten S bucket hS0] at hcs
    exact hcs
  refine ⟨hmain, fun hne => ?_⟩
  rw [getTileCounts_eq] at hmain ⊢
  rcases hch : chunksOf S bucket with _ | ⟨t, rest⟩
  · exact absurd hch (chunksOf_ne_nil S bucket hS0 hne)
  · rw [hch] at hmain
    rw [List.map_cons] at hmain ⊢
    show some ((rest.map fun ch => getCounts f ch level).foldl addCounts
      (getCounts f t level)) = _
    rw [← hmain, columnSum, List.foldl_cons,
      addCounts_zeros_left _ (getCounts_length f t level)]

set_option maxRecDepth 100000 in
theorem tile_counts_columnar_sum_witness :
    columnSum (getTileCounts 3 (getLevelUint 2) [1, 2, 3, 257, 513] 2 1) =
      getCounts (getLevelUint 2) [1, 2, 3, 257, 513] 1 ∧
    aggregateTileCounts (getTileCounts 3 (getLevelUint 2) [1, 2, 3, 257, 513] 2 1) =
      some (getCounts (getLevelUint 2) [1, 2, 3, 257, 513] 1) :=
  ⟨(tile_counts_columnar_sum 3 (getLevelUint 2) [1, 2, 3, 257, 513] 2 1 (by decide)).1,
   (tile_counts_columnar_sum 3 (getLevelUint 2) [1, 2, 3, 257, 513] 2 1 (by decide)).2
     (by decide)⟩

/-- C8: one locked visit of a worker to a scanner bucket preserves
`0 ≤ write_head ≤ read_head ≤ len`, both heads are nondecreasing, the
read advances `read_head` by at most `len − read_head`, and the write
advances `write_head` by at most `read_head − write_head` (with
`read_head` taken after the read, as in the source). -/
theorem scanner_bucket_head_invariant (s : Nat) (g : ScannerBucket)
    (h1 : g.write_head ≤ g.read_head) (h2 : (g.read_head : Int) ≤ g.len) :
    (scanStep s g).write_head ≤ (scanStep s g).read_head ∧
    ((scanStep s g).read_head : Int) ≤ g.len ∧
    g.write_head ≤ (scanStep s g).write_head ∧
    g.read_head ≤ (scanStep s g).read_head ∧
    (scanStep s g).read_head - g.read_head ≤ g.len.toNat - g.read_head ∧
    (scanStep s g).write_head - g.write_head ≤
      (scanStep s g).read_head - g.write_head := by
  simp only [scanStep, scannerReadSize]
  split_ifs <;> refine ⟨?_, ?_, ?_, ?_, ?_, ?_⟩ <;> simp_all <;> omega

theorem scanner_bucket_head_invariant_witness :
    (scanStep 3 ⟨0, 5, 10⟩).write_head ≤ (scanStep 3 ⟨0, 5, 10⟩).read_head ∧
    ((scanStep 3 ⟨0, 5, 10⟩).read_head : Int) ≤ (10 : Int) := by
  have h := scanner_bucket_head_invariant 3 ⟨0, 5, 10⟩ (by decide) (by decide)
  exact ⟨h.1, h.2.1⟩

/-- C9: a `RadixKey` implementation with `LEVELS == 0` is rejected at
entry as a hard precondition violation (panic, modelled `none`) for
every bucket, uniformly — before any element is inspected or moved. -/
theorem radix_sort_rejects_zero_levels (f : Nat → Nat → Nat) (bucket : List Nat) :
    radixSortInner f 0 bucket = none := by
  rw [radixSortInner, if_pos rfl]

/-- C10: `detect_plateaus` returns the empty vector for every bucket of
fewer than 2048 elements (then `len >> 4`, the minimum plateau size, is
below 128 and the early return fires), even when the bucket is one
single run of equal bytes. -/
theorem detect_plateaus_below_2048 [Inhabited α] (f : α → Nat → Nat)
    (bucket : List α) (level : Nat) (h : bucket.length < 2048) :
    detectPlateaus f bucket level = [] := by
  have h1 : bucket.length >>> 4 < 128 := by
    rw [Nat.shiftRight_eq_div_pow, show (2 : Nat) ^ 4 = 16 from rfl]
    omega
  simp only [detectPlateaus]
  rw [if_pos h1]

theorem detect_plateaus_below_2048_witness :
    (List.replicate 300 (7 : Nat)).length < 2048 ∧
    detectPlateaus (getLevelUint 4) (List.replicate 300 (7 : Nat)) 2 = [] :=
  ⟨by rw [List.length_replicate]; omega,
   detect_plateaus_below_2048 (getLevelUint 4) _ 2 (by rw [List.length_replicate]; omega)⟩

end Rdst
